import Mathlib

/-!
Verification of the RedesPruebas routing node.

A shallow embedding, in Lean 4, of the routing core of the repository:

* `packets.py`        — packet construction, validation, identity, TTL helpers;
* `dijkstra_rt.py`    — single-source shortest paths with next-hop extraction;
* `router_lsr_redis.py`      — the link-state routing engine;
* `router_flooding_redis.py` — the pure flooding engine;
* `interactive_lsr_router.py` — the interactive link-state variant (its LSA timer).

Python dictionaries are embedded as insertion-ordered association lists
(`dget`/`dset` mirror `d[k]`/`d.get(k)`/`d[k] = v`), dynamic Python values as
the inductive type `Val`, floats as rationals, and `math.inf` as `⊤` in
`WithTop ℚ`.  `uuid.uuid4()` is modelled by an explicit `fresh : String`
argument threaded to every call site of `get_packet_id`; distinct calls of
`uuid4` are modelled by distinct `fresh` values.  The Redis transport is
external: a handler returns the list of `(channel, packet)` pairs it publishes,
in order, instead of calling `transport.publish`.
-/

/- `Rat.add`/`Rat.mul`/`Rat.sub` are `@[irreducible]` in Batteries, which
blocks kernel evaluation (`decide`) of concrete rational arithmetic; concrete
routing tables below are evaluated in witnesses, so restore reducibility. -/
set_option allowUnsafeReducibility true
attribute [local semireducible] Rat.add Rat.mul Rat.sub Rat.blt

namespace RedesPruebas

/-- A dynamic (JSON-like) Python value: strings, ints, floats (as `ℚ`),
lists, dicts (insertion-ordered association lists) and `None`. -/
inductive Val : Type where
  | vStr  : String → Val
  | vInt  : Int → Val
  | vRat  : ℚ → Val
  | vList : List Val → Val
  | vDict : List (String × Val) → Val
  | vNone : Val

mutual

/-- Structural equality of dynamic values (`==` on Python values). -/
def Val.beq : Val → Val → Bool
  | .vStr a, .vStr b => a = b
  | .vInt a, .vInt b => a = b
  | .vRat a, .vRat b => a = b
  | .vList a, .vList b => Val.beqL a b
  | .vDict a, .vDict b => Val.beqD a b
  | .vNone, .vNone => true
  | _, _ => false

/-- Equality of lists of dynamic values. -/
def Val.beqL : List Val → List Val → Bool
  | [], [] => true
  | a :: as, b :: bs => Val.beq a b && Val.beqL as bs
  | _, _ => false

/-- Equality of dicts of dynamic values (as ordered association lists). -/
def Val.beqD : List (String × Val) → List (String × Val) → Bool
  | [], [] => true
  | (k, v) :: as, (k', v') :: bs => k = k' && Val.beq v v' && Val.beqD as bs
  | _, _ => false

end

mutual

theorem Val.beq_iff : ∀ a b : Val, Val.beq a b = true ↔ a = b
  | .vStr a, .vStr b => by simp [Val.beq]
  | .vInt a, .vInt b => by simp [Val.beq]
  | .vRat a, .vRat b => by simp [Val.beq]
  | .vList a, .vList b => by
      simp only [Val.beq, Val.beqL_iff a b]
      constructor
      · intro h; rw [h]
      · intro h; cases h; rfl
  | .vDict a, .vDict b => by
      simp only [Val.beq, Val.beqD_iff a b]
      constructor
      · intro h; rw [h]
      · intro h; cases h; rfl
  | .vNone, .vNone => by simp [Val.beq]
  | .vStr _, .vInt _ => by simp [Val.beq]
  | .vStr _, .vRat _ => by simp [Val.beq]
  | .vStr _, .vList _ => by simp [Val.beq]
  | .vStr _, .vDict _ => by simp [Val.beq]
  | .vStr _, .vNone => by simp [Val.beq]
  | .vInt _, .vStr _ => by simp [Val.beq]
  | .vInt _, .vRat _ => by simp [Val.beq]
  | .vInt _, .vList _ => by simp [Val.beq]
  | .vInt _, .vDict _ => by simp [Val.beq]
  | .vInt _, .vNone => by simp [Val.beq]
  | .vRat _, .vStr _ => by simp [Val.beq]
  | .vRat _, .vInt _ => by simp [Val.beq]
  | .vRat _, .vList _ => by simp [Val.beq]
  | .vRat _, .vDict _ => by simp [Val.beq]
  | .vRat _, .vNone => by simp [Val.beq]
  | .vList _, .vStr _ => by simp [Val.beq]
  | .vList _, .vInt _ => by simp [Val.beq]
  | .vList _, .vRat _ => by simp [Val.beq]
  | .vList _, .vDict _ => by simp [Val.beq]
  | .vList _, .vNone => by simp [Val.beq]
  | .vDict _, .vStr _ => by simp [Val.beq]
  | .vDict _, .vInt _ => by simp [Val.beq]
  | .vDict _, .vRat _ => by simp [Val.beq]
  | .vDict _, .vList _ => by simp [Val.beq]
  | .vDict _, .vNone => by simp [Val.beq]
  | .vNone, .vStr _ => by simp [Val.beq]
  | .vNone, .vInt _ => by simp [Val.beq]
  | .vNone, .vRat _ => by simp [Val.beq]
  | .vNone, .vList _ => by simp [Val.beq]
  | .vNone, .vDict _ => by simp [Val.beq]

theorem Val.beqL_iff : ∀ a b : List Val, Val.beqL a b = true ↔ a = b
  | [], [] => by simp [Val.beqL]
  | a :: as, b :: bs => by
      simp only [Val.beqL, Bool.and_eq_true, Val.beq_iff a b, Val.beqL_iff as bs,
        List.cons.injEq]
  | [], _ :: _ => by simp [Val.beqL]
  | _ :: _, [] => by simp [Val.beqL]

theorem Val.beqD_iff : ∀ a b : List (String × Val), Val.beqD a b = true ↔ a = b
  | [], [] => by simp [Val.beqD]
  | (k, v) :: as, (k', v') :: bs => by
      simp only [Val.beqD, Bool.and_eq_true, decide_eq_true_eq, Val.beq_iff v v',
        Val.beqD_iff as bs, List.cons.injEq, Prod.mk.injEq, and_assoc]
  | [], _ :: _ => by simp [Val.beqD]
  | _ :: _, [] => by simp [Val.beqD]

end

instance : DecidableEq Val := fun a b => decidable_of_iff _ (Val.beq_iff a b)

/-- `d.get(k)` on a Python dict: the value at the first (unique) matching key. -/
def dget {β : Type} : List (String × β) → String → Option β
  | [], _ => none
  | (k', v) :: rest, k => if k' = k then some v else dget rest k

/-- `d[k] = v` on a Python dict: overwrite in place, or append a new key. -/
def dset {β : Type} : List (String × β) → String → β → List (String × β)
  | [], k, v => [(k, v)]
  | (k', v') :: rest, k, v =>
      if k' = k then (k, v) :: rest else (k', v') :: dset rest k v

/-- Python truthiness of a `Val` (`bool(x)`). -/
def Val.truthy : Val → Bool
  | .vStr s => s ≠ ""
  | .vInt n => n ≠ 0
  | .vRat q => q ≠ 0
  | .vList l => ¬ l.isEmpty
  | .vDict d => ¬ d.isEmpty
  | .vNone => false

/-- `pkt.get(k)` when `pkt` is a dict, else nothing (callers validate first). -/
def pget (pkt : Val) (k : String) : Option Val :=
  match pkt with
  | .vDict d => dget d k
  | _ => none

/-- `pkt.get(k, "")` for the string-valued fields (`from`, `to`, `type`,
`originator`); in this system those fields are always strings when present. -/
def pgetStr (pkt : Val) (k : String) : String :=
  match pget pkt k with
  | some (.vStr s) => s
  | _ => ""

/-- `int(x)` on the values that can appear in a `hops` field; `none` models
the `TypeError`/`ValueError` branch caught by `dec_hops`. -/
def int_of_val : Val → Option Int
  | .vInt n => some n
  | .vRat q => some (q.num / (q.den : Int))
  | .vStr s => s.toInt?
  | _ => none

/-! ## packets.py -/

/-- `packets.make_packet`: builds the packet envelope; `seq_num` and
`neighbors` are added only when the optional arguments are given. -/
def make_packet (p_type from_channel to_channel : String) (hops : Int)
    (alg : String) (seq_num : Option Int) (neighbors : Option (List String))
    (payload : Val) : Val :=
  let packet : List (String × Val) :=
    [("type", .vStr p_type), ("from", .vStr from_channel),
     ("to", .vStr to_channel), ("hops", .vInt hops),
     ("headers", .vDict [("alg", .vStr alg)]), ("payload", payload)]
  let packet :=
    match seq_num with
    | some n => dset packet "seq_num" (.vInt n)
    | none => packet
  let packet :=
    match neighbors with
    | some ns => dset packet "neighbors" (.vList (ns.map .vStr))
    | none => packet
  .vDict packet

/-- `packets.validate_packet`: the five required keys must be present with the
required `isinstance` types, and `headers` must contain `alg`.  (The Python
code checks presence of all five keys first and then the types; the combined
per-key check below returns the same boolean in every case.) -/
def validate_packet (pkt : Val) : Bool :=
  match pkt with
  | .vDict d =>
      (match dget d "type" with | some (.vStr _) => true | _ => false) &&
      (match dget d "from" with | some (.vStr _) => true | _ => false) &&
      (match dget d "to" with | some (.vStr _) => true | _ => false) &&
      (match dget d "hops" with | some (.vInt _) => true | _ => false) &&
      (match dget d "headers" with
       | some (.vDict h) => (dget h "alg").isSome
       | _ => false)
  | _ => false

/-- `packets.get_packet_id`: `headers.id` when present; otherwise a fresh
`uuid4` string, modelled by the `fresh` argument.  When `headers` is absent,
is not a dict, or `pkt` is not a dict, the Python code reaches its
`except`/default branch and likewise returns a fresh uuid. -/
def get_packet_id (pkt : Val) (fresh : String) : Val :=
  match pkt with
  | .vDict d =>
      match dget d "headers" with
      | some (.vDict h) => (dget h "id").getD (.vStr fresh)
      | some _ => .vStr fresh
      | none => .vStr fresh
  | _ => .vStr fresh

/-- `packets.dec_hops`: sets `pkt["hops"] = int(pkt.get("hops", 0)) - 1`
(falling back to `-1` when the conversion raises) and returns the updated
packet together with the new value.  Mutation is modelled by returning the
updated dict.  (A non-dict `pkt` would raise out of `dec_hops`; every caller
validates first, so that case is modelled as the fallback.) -/
def dec_hops (pkt : Val) : Val × Int :=
  match pkt with
  | .vDict d =>
      match int_of_val ((dget d "hops").getD (.vInt 0)) with
      | some n => (.vDict (dset d "hops" (.vInt (n - 1))), n - 1)
      | none => (.vDict (dset d "hops" (.vInt (-1))), -1)
  | _ => (pkt, -1)

/-- `packets.is_deliver_to_me`: destination equals the local channel or the
broadcast wildcard `"*"`. -/
def is_deliver_to_me (pkt : Val) (my_channel : String) : Bool :=
  let to_ch := (pget pkt "to").getD (.vStr "")
  decide (to_ch = .vStr my_channel ∨ to_ch = .vStr "*")

/-! ## dijkstra_rt.py

`routing_table_for` runs Dijkstra over an adjacency mapping
`node → (neighbour → cost)` with a lazy-deletion binary heap of
`(distance, node)` pairs.  Embedding choices, each mirroring the Python:

* float costs are rationals; `math.inf` is `⊤ : WithTop ℚ`;
* the dicts `graph`, `dist`, `prev` are insertion-ordered association lists
  (`dget`/`dset`);
* `heapq` is a min-priority queue of `(float, str)` tuples ordered
  lexicographically (Python tuple `<`, strings by code points); it is modelled
  by a list kept sorted under exactly that order, so `heappop` (taking the
  heap minimum) is taking the head, and `heappush` is ordered insertion.
  The popped values coincide with `heapq`'s, tie values being equal;
* the unbounded `while pq:` loop runs on fuel; `dijkstraFuel` is proved
  sufficient below (`dijkstraLoop_fuel_sufficient`), so the fueled run is the
  loop run to completion. -/

/-- The inner adjacency dict `neighbour → cost` of one node. -/
abbrev Adj : Type := List (String × ℚ)

/-- The graph: `Dict[str, Dict[str, float]]`. -/
abbrev Graph : Type := List (String × Adj)

/-- `graph.get(u, {})`. -/
def adjOf (g : Graph) (u : String) : Adj := (dget g u).getD []

/-- The key list of the graph dict, in insertion order (`for dest in graph`). -/
def gkeys (g : Graph) : List String := g.map Prod.fst

/-- `dist.get(v, math.inf)` (also `dist[v]`, every read of `dist[v]` in the
source is at a present key). -/
def distGet (dist : List (String × WithTop ℚ)) (v : String) : WithTop ℚ :=
  (dget dist v).getD ⊤

/-- `prev.get(hop)`: `None` when missing (and stored `None`s read back). -/
def prevGet (prev : List (String × Option String)) (v : String) : Option String :=
  (dget prev v).getD none

/-- The order `heapq` uses on `(float, str)` tuples: Python tuple `<`
made non-strict, with strings compared lexicographically by code points. -/
def pqle (x y : ℚ × String) : Prop :=
  x.1 < y.1 ∨ (x.1 = y.1 ∧ x.2.data ≤ y.2.data)

instance : DecidableRel pqle := fun x y => by unfold pqle; infer_instance

/-- `heapq.heappush`: the queue is modelled as a list sorted by `pqle`,
so a push is ordered insertion. -/
def heappush (pq : List (ℚ × String)) (x : ℚ × String) : List (ℚ × String) :=
  List.orderedInsert pqle x pq

/-- The mutable state of `routing_table_for`'s main loop. -/
structure DState where
  dist : List (String × WithTop ℚ)
  prev : List (String × Option String)
  pq   : List (ℚ × String)

/-- One step of the relaxation loop
`for v, w in graph.get(u, {}).items(): nd = d + float(w); if nd < dist.get(v, math.inf): ...`. -/
def relaxOne (u : String) (d : ℚ) (st : DState) (vw : String × ℚ) : DState :=
  let nd : ℚ := d + vw.2
  if (nd : WithTop ℚ) < distGet st.dist vw.1 then
    { dist := dset st.dist vw.1 (nd : WithTop ℚ)
      prev := dset st.prev vw.1 (some u)
      pq := heappush st.pq (nd, vw.1) }
  else st

/-- The main loop `while pq:` with lazy deletion: pop the minimum `(d, u)`;
skip it when stale (`d != dist[u]`, stated below as the positive test first);
otherwise relax every outgoing edge of `u`. -/
def dijkstraLoop (g : Graph) : Nat → DState → DState
  | 0, st => st
  | fuel + 1, st =>
    match st.pq with
    | [] => st
    | (d, u) :: rest =>
      if (d : WithTop ℚ) = distGet st.dist u then
        dijkstraLoop g fuel ((adjOf g u).foldl (relaxOne u d) ⟨st.dist, st.prev, rest⟩)
      else
        dijkstraLoop g fuel ⟨st.dist, st.prev, rest⟩

/-- `dist = {n: inf for n in graph}; prev = {n: None for n in graph};
dist[source] = 0.0; pq = [(0.0, source)]`. -/
def initState (g : Graph) (source : String) : DState :=
  { dist := dset (g.map fun p => (p.1, (⊤ : WithTop ℚ))) source ((0 : ℚ) : WithTop ℚ)
    prev := g.map fun p => (p.1, (none : Option String))
    pq := [((0 : ℚ), source)] }

/-- Total number of adjacency entries of the graph. -/
def edgeCount (g : Graph) : Nat := (g.map fun p => p.2.length).sum

/-- Fuel sufficient to drain the queue: one more than the maximum possible
number of pops (`1 + edgeCount g` pushes can ever happen). -/
def dijkstraFuel (g : Graph) : Nat := edgeCount g + 2

/-- The backward walk
`while prev.get(hop) and prev[hop] != source: hop = prev[hop]`;
the loop continues only while `prev[hop]` is truthy (not `None`, not `""`)
and differs from `source`.  Its fuel is proved sufficient below. -/
def walkHop (prev : List (String × Option String)) (source : String) :
    Nat → String → String
  | 0, hop => hop
  | fuel + 1, hop =>
    match prevGet prev hop with
    | some p => if p ≠ "" ∧ p ≠ source then walkHop prev source fuel p else hop
    | none => hop

/-- One routing-table row `{"destino": …, "next_hop": …, "costo": …}`.
(In the source, `next_hop = hop if prev.get(hop) == source else hop`: both
branches are `hop`, so `next_hop` is just the final `hop` of the walk.) -/
structure RTEntry where
  destino : String
  next_hop : String
  costo : ℚ
deriving DecidableEq

/-- `dijkstra_rt.routing_table_for`. -/
def routing_table_for (g : Graph) (source : String) : List RTEntry :=
  let st := dijkstraLoop g (dijkstraFuel g) (initState g source)
  (gkeys g).filterMap fun dest =>
    if dest = source then none
    else if distGet st.dist dest = ⊤ then none
    else some { destino := dest
                next_hop := walkHop st.prev source (st.prev.length + 1) dest
                costo := (distGet st.dist dest).untop' 0 }

/-! ### Specification-side notions for shortest paths -/

/-- An edge of weight `w` from `u` to `v`: `v ↦ w` in `graph.get(u, {})`. -/
def HasEdge (g : Graph) (u v : String) (w : ℚ) : Prop := (v, w) ∈ adjOf g u

/-- A walk from `s` to `t` of total cost `c` along edges of `g`. -/
inductive IsPath (g : Graph) (s : String) : String → ℚ → Prop where
  | nil : IsPath g s s 0
  | snoc {v t : String} {c w : ℚ} :
      IsPath g s v c → HasEdge g v t w → IsPath g s t (c + w)

/-- The graph models a Python adjacency dict (no duplicate keys), all edge
costs are non-negative, and every node identifier occurring in it is a
non-empty string. -/
def WellFormedGraph (g : Graph) : Prop :=
  (gkeys g).Nodup ∧
  (∀ p ∈ g, (p.2.map Prod.fst).Nodup) ∧
  (∀ p ∈ g, ∀ vw ∈ p.2, 0 ≤ vw.2) ∧
  (∀ p ∈ g, p.1 ≠ "" ∧ ∀ vw ∈ p.2, vw.1 ≠ "")

instance (g : Graph) : Decidable (WellFormedGraph g) := by
  unfold WellFormedGraph; infer_instance

/-! ## id_map.py (external identity/topology collaborator)

`NODE_TO_CHANNEL` and `channel_to_node` are the external identity map (§6 of
the spec); they are parameters here: `n2c` maps a node id to its channel
(`get_channel` raises for unknown ids in Python; the engines only resolve ids
they were given, so it is modelled as total), `c2n` maps a channel back to a
node id, `""` when unknown — exactly `channel_to_node`'s failure value. -/

/-- `id_map.get_channel`: the wildcard resolves to itself, anything else
through the table. -/
def get_channel (n2c : String → String) (node_id : String) : String :=
  if node_id = "*" then "*" else n2c node_id

/-- `set.add` on a dedup set modelled as a duplicate-free list. -/
def seenAdd (s : List Val) (x : Val) : List Val := if x ∈ s then s else s ++ [x]

/-- `pkt[k] = v` on a packet dict. -/
def vset (pkt : Val) (k : String) (v : Val) : Val :=
  match pkt with
  | .vDict d => .vDict (dset d k v)
  | _ => pkt

/-! ## router_lsr_redis.py — the link-state engine

Every handler takes the router state and returns the new state together with
the ordered list of `(channel, packet)` pairs handed to `transport.publish`.
Printing is not modelled. -/

/-- The mutable state of `LinkStateRouterRedis`. -/
structure LsrState where
  node_id : String
  channel_local : String
  neighbors : List String
  lsdb : List (String × Val)
  sequence_number : Int
  seen_lsp_ids : List Val
  routing_table : List RTEntry
deriving DecidableEq

/-- `LinkStateRouterRedis._handle_hello`: learn the sender when it resolves to
a node id not yet a neighbour, then always answer with one `hello_ack` to the
sender's channel. -/
def handle_hello (c2n : String → String) (s : LsrState) (pkt : Val) :
    LsrState × List (String × Val) :=
  let sender_ch := pgetStr pkt "from"
  let sender_node := c2n sender_ch
  let s' :=
    if sender_node ≠ "" ∧ sender_node ∉ s.neighbors then
      { s with neighbors := s.neighbors ++ [sender_node] }
    else s
  let ack := make_packet "hello_ack" s.channel_local sender_ch 1 "lsr" none none
    (.vStr "HELLO_ACK")
  (s', [(sender_ch, ack)])

/-- `LinkStateRouterRedis._handle_hello_ack`: learn the sender, reply nothing. -/
def handle_hello_ack (c2n : String → String) (s : LsrState) (pkt : Val) :
    LsrState × List (String × Val) :=
  let sender_node := c2n (pgetStr pkt "from")
  (if sender_node ≠ "" ∧ sender_node ∉ s.neighbors then
     { s with neighbors := s.neighbors ++ [sender_node] }
   else s, [])

/-- `LinkStateRouterRedis._flood_lsp`: publish the packet unchanged to every
neighbour whose channel is not the (truthy) excluded one.  `exclude = ""`
models both `exclude=None` and an empty `from` (both falsy). -/
def flood_lsp (n2c : String → String) (neighbors : List String) (pkt : Val)
    (exclude : String) : List (String × Val) :=
  neighbors.filterMap fun neigh =>
    let ch := get_channel n2c neigh
    if exclude ≠ "" ∧ ch = exclude then none else some (ch, pkt)

/-- `LinkStateRouterRedis._forward_packet`: decrement hops in place and drop
when the new value is `≤ 0`, else publish to the next hop's channel. -/
def forward_packet (n2c : String → String) (pkt : Val) (next_hop_node : String) :
    List (String × Val) :=
  let r := dec_hops pkt
  if r.2 ≤ 0 then [] else [(get_channel n2c next_hop_node, r.1)]

/-- `float(c)` on an advertised cost (in this system costs are numbers). -/
def ratOfVal : Val → ℚ
  | .vInt n => (n : ℚ)
  | .vRat q => q
  | _ => 0

/-- The neighbour-cost dict of an LSDB record `{"neighbors": {...}}`
(`rec.get("neighbors", {})`, costs through `float`). -/
def lsdbNeighbors (rec : Val) : Adj :=
  match rec with
  | .vDict r =>
      match dget r "neighbors" with
      | some (.vDict nd) => nd.map fun vc => (vc.1, ratOfVal vc.2)
      | _ => []
  | _ => []

/-- `dict(packet.get("neighbors", {}))` of an advertisement packet. -/
def lspNeighborsDict (pkt : Val) : List (String × Val) :=
  match pget pkt "neighbors" with
  | some (.vDict nd) => nd
  | _ => []

/-- `LinkStateRouterRedis._calculate_routing_table`: rebuild the graph from
the LSDB, substitute this node's own unit-cost row when absent, and replace
the routing table wholesale. -/
def calculate_routing_table (s : LsrState) : LsrState :=
  let graph : Graph := s.lsdb.map fun nr => (nr.1, lsdbNeighbors nr.2)
  let graph :=
    if dget graph s.node_id = none then
      dset graph s.node_id (s.neighbors.map fun n => (n, (1 : ℚ)))
    else graph
  { s with routing_table := routing_table_for graph s.node_id }

/-- `LinkStateRouterRedis._get_next_hop`: first routing-table row for the
destination, else `""`. -/
def get_next_hop (s : LsrState) (destination_node : String) : String :=
  match s.routing_table.find? (fun e => e.destino == destination_node) with
  | some e => e.next_hop
  | none => ""

/-- `LinkStateRouterRedis._handle_lsp`: dedup on the advertisement identity
(adding it to the seen set *before* the originator check), drop
originator-less advertisements, else overwrite the LSDB row, re-flood the
unmodified packet to every neighbour but the sender, and recompute the
routing table. -/
def handle_lsp (n2c : String → String) (s : LsrState) (pkt : Val) (fresh : String) :
    LsrState × List (String × Val) :=
  let lsp_id := get_packet_id pkt fresh
  if ¬ lsp_id.truthy ∨ lsp_id ∈ s.seen_lsp_ids then (s, [])
  else
    let s₁ := { s with seen_lsp_ids := seenAdd s.seen_lsp_ids lsp_id }
    let originator := pgetStr pkt "originator"
    if originator = "" then (s₁, [])
    else
      let s₂ := { s₁ with
        lsdb := dset s₁.lsdb originator (.vDict [("neighbors", .vDict (lspNeighborsDict pkt))]) }
      let published := flood_lsp n2c s₂.neighbors pkt (pgetStr pkt "from")
      (calculate_routing_table s₂, published)

/-- `LinkStateRouterRedis._handle_data_packet`: deliver locally, or drop when
the destination channel does not resolve, or forward along the routing table;
without a route nothing is published (`"Sem rota"`). -/
def handle_data_packet (c2n n2c : String → String) (s : LsrState) (pkt : Val) :
    List (String × Val) :=
  if is_deliver_to_me pkt s.channel_local then []
  else
    let dst_node := c2n (pgetStr pkt "to")
    if dst_node = "" then []
    else
      let next_hop := get_next_hop s dst_node
      if next_hop ≠ "" then forward_packet n2c pkt next_hop else []

/-- `LinkStateRouterRedis._emit_hello` (HELLO timer body): one `hello`,
hop limit 1, to every neighbour. -/
def emit_hello (n2c : String → String) (s : LsrState) : List (String × Val) :=
  s.neighbors.map fun neigh =>
    let ch := get_channel n2c neigh
    (ch, make_packet "hello" s.channel_local ch 1 "lsr" none none (.vStr "HELLO"))

/-- `LinkStateRouterRedis._emit_lsp` (LSA timer body): build the `lsp` packet
(hop limit 8, broadcast destination), set `originator` to this node and
overwrite `neighbors` with the unit-cost record, bump the sequence number and
flood to all neighbours.  Nothing is ever added to the packet's `headers`. -/
def emit_lsp (n2c : String → String) (s : LsrState) : LsrState × List (String × Val) :=
  let neighbors_costs : Val := .vDict (s.neighbors.map fun n => (n, .vInt 1))
  let lsp := make_packet "lsp" s.channel_local "*" 8 "lsr" none
    (some (s.neighbors.map (get_channel n2c))) (.vStr "")
  let lsp := vset lsp "originator" (.vStr s.node_id)
  let lsp := vset lsp "neighbors" neighbors_costs
  let s' := { s with sequence_number := s.sequence_number + 1 }
  (s', flood_lsp n2c s'.neighbors lsp "")

/-- `LinkStateRouterRedis.send`: unicast along the routing table when a next
hop exists, else flood the fresh packet to every neighbour. -/
def lsr_send (n2c : String → String) (s : LsrState) (dst_node : String)
    (payload : Val) (hops : Int) : List (String × Val) :=
  let pkt := make_packet "message" s.channel_local (get_channel n2c dst_node)
    hops "lsr" none none payload
  let nh := get_next_hop s dst_node
  if nh ≠ "" then forward_packet n2c pkt nh
  else s.neighbors.map fun neigh => (get_channel n2c neigh, pkt)

/-- `LinkStateRouterRedis._on_packet`: validate, then dispatch on `type`. -/
def lsr_on_packet (c2n n2c : String → String) (s : LsrState) (pkt : Val)
    (fresh : String) : LsrState × List (String × Val) :=
  if ¬ validate_packet pkt then (s, [])
  else if pgetStr pkt "type" = "hello" then handle_hello c2n s pkt
  else if pgetStr pkt "type" = "hello_ack" then handle_hello_ack c2n s pkt
  else if pgetStr pkt "type" = "lsp" then handle_lsp n2c s pkt fresh
  else if pgetStr pkt "type" = "message" then (s, handle_data_packet c2n n2c s pkt)
  else (s, [])

/-! ## router_flooding_redis.py — the flooding engine -/

/-- The mutable state of `FloodingRouterRedis`. -/
structure FloodState where
  node_id : String
  channel_local : String
  neighbors : List String
  seen : List Val
deriving DecidableEq

/-- `FloodingRouterRedis._flood_forward`: publish to every neighbour. -/
def flood_forward (n2c : String → String) (neighbors : List String) (pkt : Val) :
    List (String × Val) :=
  neighbors.map fun neigh => (get_channel n2c neigh, pkt)

/-- `FloodingRouterRedis._on_packet`: validate; dedup on the packet identity;
deliver locally (the `Bool` component records the local-delivery event);
else decrement hops, drop at `≤ 0`, else flood to all neighbours. -/
def flood_on_packet (n2c : String → String) (s : FloodState) (pkt : Val)
    (fresh : String) : FloodState × List (String × Val) × Bool :=
  if ¬ validate_packet pkt then (s, [], false)
  else
    let pkt_id := get_packet_id pkt fresh
    if ¬ pkt_id.truthy ∨ pkt_id ∈ s.seen then (s, [], false)
    else
      let s₁ := { s with seen := seenAdd s.seen pkt_id }
      if is_deliver_to_me pkt s.channel_local then (s₁, [], true)
      else
        let r := dec_hops pkt
        if r.2 ≤ 0 then (s₁, [], false)
        else (s₁, flood_forward n2c s₁.neighbors r.1, false)

/-- `FloodingRouterRedis.send`: build the packet, mark its (freshly
synthesised!) identity as seen, and flood the packet to every neighbour. -/
def flood_send (n2c : String → String) (s : FloodState) (dst_node : String)
    (payload : Val) (hops : Int) (fresh : String) :
    FloodState × List (String × Val) :=
  let pkt := make_packet "message" s.channel_local (get_channel n2c dst_node)
    hops "flooding" none none payload
  let pkt_id := get_packet_id pkt fresh
  let s' := if pkt_id.truthy then { s with seen := seenAdd s.seen pkt_id } else s
  (s', s'.neighbors.map fun neigh => (get_channel n2c neigh, pkt))

/-! ## interactive_lsr_router.py — the interactive variant's LSA timer -/

/-- `InteractiveLSRRouter._emit_lsp`: like the Redis engine's, but the
neighbour-cost record is keyed by channels, the type is `"info"`, and
`packet["headers"]` is *replaced by a list* `[{"id": f"LSP-{node}-{seq}"}]`. -/
def interactive_emit_lsp (n2c : String → String) (s : LsrState) :
    LsrState × List (String × Val) :=
  let neighbors_costs : Val := .vDict (s.neighbors.map fun n => (get_channel n2c n, .vInt 1))
  let lsp := make_packet "info" s.channel_local "*" 8 "lsr" none none (.vStr "")
  let lsp := vset lsp "originator" (.vStr s.node_id)
  let lsp := vset lsp "neighbors" neighbors_costs
  let lsp := vset lsp "headers"
    (.vList [.vDict [("id", .vStr ("LSP-" ++ s.node_id ++ "-" ++ toString s.sequence_number))]])
  let s' := { s with sequence_number := s.sequence_number + 1 }
  (s', flood_lsp n2c s'.neighbors lsp "")

/-! ## Claim theorems -/

/-- **C7** — `get_packet_id` returns `headers.id` whenever that key is present
in the packet's headers dict (for any synthesised identifier), and when it is
absent each call returns the identifier freshly synthesised by that call, so
two calls on the same id-less packet with distinct fresh identifiers return
distinct results. -/
theorem C7_get_packet_id_spec (d h : List (String × Val))
    (hh : dget d "headers" = some (.vDict h)) :
    (∀ i fresh, dget h "id" = some i → get_packet_id (.vDict d) fresh = i) ∧
    (dget h "id" = none → ∀ fresh, get_packet_id (.vDict d) fresh = .vStr fresh) ∧
    (dget h "id" = none → ∀ f₁ f₂, f₁ ≠ f₂ →
      get_packet_id (.vDict d) f₁ ≠ get_packet_id (.vDict d) f₂) := by
  refine ⟨fun i fresh hi => ?_, fun hi fresh => ?_, fun hi f₁ f₂ hne => ?_⟩ <;>
    simp [get_packet_id, hh, hi]
  exact hne

/-- Witness for C7 at a concrete packet with and without an explicit id. -/
theorem C7_witness :
    get_packet_id (.vDict [("headers", .vDict [("id", .vStr "x")])]) "f" = .vStr "x" ∧
    get_packet_id (.vDict [("headers", .vDict [])]) "f1"
      ≠ get_packet_id (.vDict [("headers", .vDict [])]) "f2" :=
  ⟨(C7_get_packet_id_spec [("headers", .vDict [("id", .vStr "x")])]
      [("id", .vStr "x")] (by decide)).1 _ "f" (by decide),
   (C7_get_packet_id_spec [("headers", .vDict [])] [] (by decide)).2.2
      (by decide) "f1" "f2" (by decide)⟩

/-- **C9** — every packet built by `make_packet` passes `validate_packet`,
and its headers dict is exactly `{"alg": alg}`: in particular it never
contains an `"id"` key, so packets originated by these constructors carry no
explicit identity. -/
theorem C9_make_packet_validates (p_type from_channel to_channel : String)
    (hops : Int) (alg : String) (seq_num : Option Int)
    (neighbors : Option (List String)) (payload : Val) :
    validate_packet (make_packet p_type from_channel to_channel hops alg
        seq_num neighbors payload) = true ∧
    pget (make_packet p_type from_channel to_channel hops alg
        seq_num neighbors payload) "headers" = some (.vDict [("alg", .vStr alg)]) ∧
    ∀ hd, pget (make_packet p_type from_channel to_channel hops alg
        seq_num neighbors payload) "headers" = some (.vDict hd) →
      dget hd "id" = none := by
  have hp : pget (make_packet p_type from_channel to_channel hops alg
      seq_num neighbors payload) "headers" = some (.vDict [("alg", .vStr alg)]) := by
    rcases seq_num with _ | n <;> rcases neighbors with _ | ns <;>
      simp [make_packet, pget, dget, dset]
  refine ⟨?_, hp, fun hd hhd => ?_⟩
  · rcases seq_num with _ | n <;> rcases neighbors with _ | ns <;>
      simp [make_packet, validate_packet, dget, dset]
  · rw [hp] at hhd
    obtain rfl : [("alg", Val.vStr alg)] = hd := by simpa using hhd
    rfl

/-- **C2** — re-delivering an advertisement whose identity is already in the
seen-advertisement set is a complete no-op: the state (LSDB, seen set,
routing table, all fields) is returned unchanged and nothing is published. -/
theorem C2_duplicate_lsp_noop (n2c : String → String) (s : LsrState) (pkt : Val)
    (fresh : String) (hseen : get_packet_id pkt fresh ∈ s.seen_lsp_ids) :
    handle_lsp n2c s pkt fresh = (s, []) := by
  unfold handle_lsp
  simp [hseen]

/-- Witness for C2: a duplicate advertisement (id `"x"` already seen) at a
concrete router state. -/
theorem C2_witness :
    handle_lsp (fun n => "ch" ++ n)
      ⟨"A", "chA", ["B"], [], 0, [.vStr "x"], []⟩
      (.vDict [("type", .vStr "lsp"), ("from", .vStr "chB"), ("to", .vStr "*"),
               ("hops", .vInt 8), ("headers", .vDict [("alg", .vStr "lsr"), ("id", .vStr "x")]),
               ("payload", .vStr ""), ("originator", .vStr "B")])
      "f"
      = (⟨"A", "chA", ["B"], [], 0, [.vStr "x"], []⟩, []) :=
  C2_duplicate_lsp_noop _ _ _ _ (by decide)

/-- **C10** — an advertisement with an unseen identity but no originator is
dropped, *yet its identity is still recorded*: the handler returns the state
with only the seen set extended and publishes nothing; afterwards any packet
whose identity computes to the same value (with or without an originator) is
ignored as a duplicate. -/
theorem C10_originatorless_lsp_poisons_dedup (n2c : String → String)
    (s : LsrState) (pkt : Val) (fresh : String)
    (hid : (get_packet_id pkt fresh).truthy = true)
    (hnew : get_packet_id pkt fresh ∉ s.seen_lsp_ids)
    (horig : pgetStr pkt "originator" = "") :
    handle_lsp n2c s pkt fresh
      = ({ s with seen_lsp_ids := s.seen_lsp_ids ++ [get_packet_id pkt fresh] }, []) ∧
    ∀ (pkt₂ : Val) (fresh₂ : String),
      get_packet_id pkt₂ fresh₂ = get_packet_id pkt fresh →
      handle_lsp n2c { s with seen_lsp_ids := s.seen_lsp_ids ++ [get_packet_id pkt fresh] }
          pkt₂ fresh₂
        = ({ s with seen_lsp_ids := s.seen_lsp_ids ++ [get_packet_id pkt fresh] }, []) := by
  constructor
  · unfold handle_lsp
    simp [hid, hnew, seenAdd, horig]
  · intro pkt₂ fresh₂ hsame
    unfold handle_lsp
    have : get_packet_id pkt₂ fresh₂ ∈ s.seen_lsp_ids ++ [get_packet_id pkt fresh] := by
      simp [hsame]
    simp [this]

/-- Witness for C10: a concrete originator-less advertisement, then a second
advertisement with the same id and a proper originator, both ignored. -/
theorem C10_witness :
    handle_lsp (fun n => "ch" ++ n) ⟨"A", "chA", ["B"], [], 0, [], []⟩
      (.vDict [("type", .vStr "lsp"), ("from", .vStr "chB"), ("to", .vStr "*"),
               ("hops", .vInt 8), ("headers", .vDict [("alg", .vStr "lsr"), ("id", .vStr "x")]),
               ("payload", .vStr "")])
      "f"
      = (⟨"A", "chA", ["B"], [], 0, [.vStr "x"], []⟩, []) ∧
    handle_lsp (fun n => "ch" ++ n) ⟨"A", "chA", ["B"], [], 0, [.vStr "x"], []⟩
      (.vDict [("type", .vStr "lsp"), ("from", .vStr "chC"), ("to", .vStr "*"),
               ("hops", .vInt 8), ("headers", .vDict [("alg", .vStr "lsr"), ("id", .vStr "x")]),
               ("payload", .vStr ""), ("originator", .vStr "C")])
      "f2"
      = (⟨"A", "chA", ["B"], [], 0, [.vStr "x"], []⟩, []) := by
  have h := C10_originatorless_lsp_poisons_dedup (fun n => "ch" ++ n)
    ⟨"A", "chA", ["B"], [], 0, [], []⟩
    (.vDict [("type", .vStr "lsp"), ("from", .vStr "chB"), ("to", .vStr "*"),
             ("hops", .vInt 8), ("headers", .vDict [("alg", .vStr "lsr"), ("id", .vStr "x")]),
             ("payload", .vStr "")])
    "f" (by decide) (by decide) (by decide)
  exact ⟨h.1, h.2 _ "f2" (by decide)⟩

/-- `_handle_lsp` never touches the neighbour list. -/
theorem handle_lsp_pres_neighbors (n2c : String → String) (s : LsrState)
    (pkt : Val) (fresh : String) :
    (handle_lsp n2c s pkt fresh).1.neighbors = s.neighbors := by
  simp only [handle_lsp, calculate_routing_table]
  split
  · rfl
  · split <;> rfl

/-- `_handle_hello` only ever appends to the neighbour list. -/
theorem handle_hello_mono (c2n : String → String) (s : LsrState) (pkt : Val) :
    ∀ x ∈ s.neighbors, x ∈ (handle_hello c2n s pkt).1.neighbors := by
  intro x hx
  simp only [handle_hello]
  split <;> simp [hx]

/-- `_handle_hello_ack` only ever appends to the neighbour list. -/
theorem handle_hello_ack_mono (c2n : String → String) (s : LsrState) (pkt : Val) :
    ∀ x ∈ s.neighbors, x ∈ (handle_hello_ack c2n s pkt).1.neighbors := by
  intro x hx
  simp only [handle_hello_ack]
  split <;> simp [hx]

/-- **C8** — the neighbour set only grows: no inbound-packet handler
(dispatched through `_on_packet`) and no timer removes a neighbour; a
`hello` is always answered with exactly one `hello_ack` published to the
sender's channel; and a `hello`/`hello_ack` from a resolvable sender that is
not yet a neighbour appends exactly that sender (a sender already known
leaves the list unchanged). -/
theorem C8_neighbors_monotone (c2n n2c : String → String) (s : LsrState) :
    (∀ pkt fresh, ∀ x ∈ s.neighbors,
      x ∈ (lsr_on_packet c2n n2c s pkt fresh).1.neighbors) ∧
    (emit_lsp n2c s).1.neighbors = s.neighbors ∧
    (interactive_emit_lsp n2c s).1.neighbors = s.neighbors ∧
    (∀ pkt, (handle_hello c2n s pkt).2
        = [(pgetStr pkt "from",
            make_packet "hello_ack" s.channel_local (pgetStr pkt "from") 1 "lsr"
              none none (.vStr "HELLO_ACK"))]) ∧
    (∀ pkt, c2n (pgetStr pkt "from") ≠ "" → c2n (pgetStr pkt "from") ∉ s.neighbors →
      (handle_hello c2n s pkt).1.neighbors = s.neighbors ++ [c2n (pgetStr pkt "from")] ∧
      (handle_hello_ack c2n s pkt).1.neighbors
        = s.neighbors ++ [c2n (pgetStr pkt "from")]) ∧
    (∀ pkt, c2n (pgetStr pkt "from") ∈ s.neighbors →
      (handle_hello c2n s pkt).1.neighbors = s.neighbors ∧
      (handle_hello_ack c2n s pkt).1.neighbors = s.neighbors) := by
  refine ⟨fun pkt fresh x hx => ?_, rfl, rfl, fun pkt => rfl,
    fun pkt hne hnot => ⟨?_, ?_⟩, fun pkt hmem => ⟨?_, ?_⟩⟩
  · simp only [lsr_on_packet]
    split
    · exact hx
    · split
      · exact handle_hello_mono c2n s pkt x hx
      · split
        · exact handle_hello_ack_mono c2n s pkt x hx
        · split
          · rw [handle_lsp_pres_neighbors]; exact hx
          · split <;> exact hx
  · simp [handle_hello, hne, hnot]
  · simp [handle_hello_ack, hne, hnot]
  · simp [handle_hello, hmem]
  · simp [handle_hello_ack, hmem]

/-- Witness for C8: a concrete `hello` from unknown node `X` grows `["B"]` to
`["B", "X"]` and is answered by exactly one `hello_ack` to `chX`. -/
theorem C8_witness :
    (handle_hello (fun ch => if ch = "chX" then "X" else "")
        ⟨"A", "chA", ["B"], [], 0, [], []⟩
        (.vDict [("type", .vStr "hello"), ("from", .vStr "chX")])).1.neighbors
      = ["B", "X"] ∧
    (handle_hello (fun ch => if ch = "chX" then "X" else "")
        ⟨"A", "chA", ["B"], [], 0, [], []⟩
        (.vDict [("type", .vStr "hello"), ("from", .vStr "chX")])).2
      = [("chX", make_packet "hello_ack" "chA" "chX" 1 "lsr" none none
          (.vStr "HELLO_ACK"))] := by
  have h := C8_neighbors_monotone (fun ch => if ch = "chX" then "X" else "")
    (fun n => "ch" ++ n) ⟨"A", "chA", ["B"], [], 0, [], []⟩
  refine ⟨?_, ?_⟩
  · have := (h.2.2.2.2.1 (.vDict [("type", .vStr "hello"), ("from", .vStr "chX")])
      (by decide) (by decide)).1
    simpa using this
  · have := h.2.2.2.1 (.vDict [("type", .vStr "hello"), ("from", .vStr "chX")])
    simpa using this

/-- **C5 (counterexample)** — an inbound data packet that is not for this
node, whose destination resolves to a known node, and that has no route, is
*dropped*: nothing is published, although the router has a neighbour.  The
claimed fallback to flooding does not happen on inbound forwarding. -/
theorem C5_counterexample :
    handle_data_packet
      (fun ch => if ch = "chD" then "D" else if ch = "chB" then "B" else "")
      (fun n => "ch" ++ n) ⟨"A", "chA", ["B"], [], 0, [], []⟩
      (make_packet "message" "chX" "chD" 5 "lsr" none none (.vStr "hi")) = [] ∧
    is_deliver_to_me (make_packet "message" "chX" "chD" 5 "lsr" none none (.vStr "hi"))
      "chA" = false ∧
    (fun ch => if ch = "chD" then "D" else if ch = "chB" then "B" else "")
      (pgetStr (make_packet "message" "chX" "chD" 5 "lsr" none none (.vStr "hi")) "to")
      = "D" ∧
    get_next_hop ⟨"A", "chA", ["B"], [], 0, [], []⟩ "D" = "" ∧
    (⟨"A", "chA", ["B"], [], 0, [], []⟩ : LsrState).neighbors = ["B"] := by
  decide

/-- **C5 (amended)** — in the link-state engine, an inbound data packet not
addressed to this node whose known destination has no routing-table entry is
dropped (nothing published); the flooding fallback exists only for *locally
originated* `send`, which publishes the fresh packet to every neighbour when
no route exists. -/
theorem C5_no_route_drop_inbound_flood_send (c2n n2c : String → String)
    (s : LsrState) (pkt : Val)
    (hnl : is_deliver_to_me pkt s.channel_local = false)
    (hknown : c2n (pgetStr pkt "to") ≠ "")
    (hnoroute : get_next_hop s (c2n (pgetStr pkt "to")) = "") :
    handle_data_packet c2n n2c s pkt = [] ∧
    ∀ dst payload hops, get_next_hop s dst = "" →
      lsr_send n2c s dst payload hops
        = s.neighbors.map fun neigh =>
            (get_channel n2c neigh,
             make_packet "message" s.channel_local (get_channel n2c dst) hops "lsr"
               none none payload) := by
  constructor
  · simp [handle_data_packet, hnl, hknown, hnoroute]
  · intro dst payload hops hnr
    simp [lsr_send, hnr]

/-- Witness for C5 at the concrete no-route state of the counterexample. -/
theorem C5_witness :
    handle_data_packet
      (fun ch => if ch = "chD" then "D" else if ch = "chB" then "B" else "")
      (fun n => "ch" ++ n) ⟨"A", "chA", ["B"], [], 0, [], []⟩
      (make_packet "message" "chX" "chD" 5 "lsr" none none (.vStr "hi")) = [] ∧
    lsr_send (fun n => "ch" ++ n) ⟨"A", "chA", ["B"], [], 0, [], []⟩ "D" (.vStr "hi") 8
      = [("chB", make_packet "message" "chA" "chD" 8 "lsr" none none (.vStr "hi"))] := by
  have h := C5_no_route_drop_inbound_flood_send
    (fun ch => if ch = "chD" then "D" else if ch = "chB" then "B" else "")
    (fun n => "ch" ++ n) ⟨"A", "chA", ["B"], [], 0, [], []⟩
    (make_packet "message" "chX" "chD" 5 "lsr" none none (.vStr "hi"))
    (by decide) (by decide) (by decide)
  exact ⟨h.1, by simpa using h.2 "D" (.vStr "hi") 8 (by decide)⟩

/-- **C3 (counterexample)** — re-flooding of advertisements does *not*
decrease `hops` and does not drop exhausted packets: a fresh advertisement
with `hops = 0` is republished unchanged (still `hops = 0`) to a neighbour by
`_handle_lsp`/`_flood_lsp`. -/
theorem C3_counterexample :
    (handle_lsp (fun n => "ch" ++ n) ⟨"A", "chA", ["B"], [], 0, [], []⟩
        (.vDict [("type", .vStr "lsp"), ("from", .vStr "chX"), ("to", .vStr "*"),
                 ("hops", .vInt 0),
                 ("headers", .vDict [("alg", .vStr "lsr"), ("id", .vStr "i1")]),
                 ("payload", .vStr ""), ("originator", .vStr "X"),
                 ("neighbors", .vDict [("A", .vInt 1)])])
        "f").2
      = [("chB",
          .vDict [("type", .vStr "lsp"), ("from", .vStr "chX"), ("to", .vStr "*"),
                  ("hops", .vInt 0),
                  ("headers", .vDict [("alg", .vStr "lsr"), ("id", .vStr "i1")]),
                  ("payload", .vStr ""), ("originator", .vStr "X"),
                  ("neighbors", .vDict [("A", .vInt 1)])])] := by
  decide

/-- **C3 (amended)** — TTL is strictly decreased, and exhausted packets are
never published, on every *data-forwarding* step of both engines
(`_forward_packet` of the link-state engine; the forwarding branch of the
flooding engine's `_on_packet`); advertisement re-flooding (`_flood_lsp`)
instead republishes the packet completely unchanged — its `hops` field is
neither decremented nor checked. -/
theorem C3_ttl_data_forwarding (n2c : String → String) :
    (∀ (d : List (String × Val)) (n : Int) (nh : String),
      dget d "hops" = some (.vInt n) →
      (n - 1 ≤ 0 → forward_packet n2c (.vDict d) nh = []) ∧
      (0 < n - 1 → forward_packet n2c (.vDict d) nh
          = [(get_channel n2c nh, .vDict (dset d "hops" (.vInt (n - 1))))])) ∧
    (∀ (s : FloodState) (d : List (String × Val)) (n : Int) (fresh : String),
      dget d "hops" = some (.vInt n) →
      validate_packet (.vDict d) = true →
      (get_packet_id (.vDict d) fresh).truthy = true →
      get_packet_id (.vDict d) fresh ∉ s.seen →
      is_deliver_to_me (.vDict d) s.channel_local = false →
      (n - 1 ≤ 0 → (flood_on_packet n2c s (.vDict d) fresh).2.1 = []) ∧
      (0 < n - 1 → (flood_on_packet n2c s (.vDict d) fresh).2.1
          = flood_forward n2c s.neighbors (.vDict (dset d "hops" (.vInt (n - 1)))))) ∧
    (∀ (neighbors : List String) (pkt : Val) (exclude : String),
      ∀ e ∈ flood_lsp n2c neighbors pkt exclude, e.2 = pkt) := by
  refine ⟨fun d n nh hd => ⟨fun hle => ?_, fun hlt => ?_⟩,
    fun s d n fresh hd hv hid hnew hnl => ⟨fun hle => ?_, fun hlt => ?_⟩,
    fun neighbors pkt exclude e he => ?_⟩
  · simp [forward_packet, dec_hops, int_of_val, hd, hle]
  · simp [forward_packet, dec_hops, int_of_val, hd, not_le.mpr hlt]
  · simp [flood_on_packet, hv, hid, hnew, hnl, dec_hops, int_of_val, hd, hle]
  · simp [flood_on_packet, hv, hid, hnew, hnl, dec_hops, int_of_val, hd,
      not_le.mpr hlt, seenAdd]
  · simp only [flood_lsp, List.mem_filterMap] at he
    obtain ⟨neigh, _, hne⟩ := he
    split at hne
    · cases hne
    · cases hne; rfl

/-- Witness for C3 at concrete packets: a data packet with `hops = 1` is
dropped after decrement, one with `hops = 3` is forwarded with `hops = 2`. -/
theorem C3_witness :
    forward_packet (fun n => "ch" ++ n)
      (.vDict [("type", .vStr "message"), ("from", .vStr "chA"), ("to", .vStr "chD"),
               ("hops", .vInt 1), ("headers", .vDict [("alg", .vStr "lsr")]),
               ("payload", .vStr "x")]) "B" = [] ∧
    forward_packet (fun n => "ch" ++ n)
      (.vDict [("type", .vStr "message"), ("from", .vStr "chA"), ("to", .vStr "chD"),
               ("hops", .vInt 3), ("headers", .vDict [("alg", .vStr "lsr")]),
               ("payload", .vStr "x")]) "B"
      = [("chB",
          .vDict [("type", .vStr "message"), ("from", .vStr "chA"), ("to", .vStr "chD"),
                  ("hops", .vInt 2), ("headers", .vDict [("alg", .vStr "lsr")]),
                  ("payload", .vStr "x")])] := by
  have h := (C3_ttl_data_forwarding (fun n => "ch" ++ n)).1
  constructor
  · exact (h [("type", .vStr "message"), ("from", .vStr "chA"), ("to", .vStr "chD"),
      ("hops", .vInt 1), ("headers", .vDict [("alg", .vStr "lsr")]),
      ("payload", .vStr "x")] 1 "B" (by decide)).1 (by decide)
  · have := (h [("type", .vStr "message"), ("from", .vStr "chA"), ("to", .vStr "chD"),
      ("hops", .vInt 3), ("headers", .vDict [("alg", .vStr "lsr")]),
      ("payload", .vStr "x")] 3 "B" (by decide)).2 (by decide)
    simpa using this

/-- **C4** — the advertisement emitted by the Redis link-state engine's LSA
timer carries the emitting node as `originator`, a unit-cost record for every
current neighbour and hop limit 8, and is published to every neighbour — but
its `headers` are exactly `{"alg": "lsr"}`: no advertisement id is ever
stamped, so the identity later computed by receivers is a fresh random value
per delivery.  The interactive variant stamps `LSP-<node>-<seq>` but *replaces*
`headers` with a list, so the id is unreadable by `get_packet_id` and the
packet even fails `validate_packet`. -/
theorem C4_lsp_timer_emits_no_id :
    (emit_lsp (fun n => "ch" ++ n) ⟨"A", "chA", ["B", "C"], [], 0, [], []⟩).2
      = [("chB",
          .vDict [("type", .vStr "lsp"), ("from", .vStr "chA"), ("to", .vStr "*"),
                  ("hops", .vInt 8), ("headers", .vDict [("alg", .vStr "lsr")]),
                  ("payload", .vStr ""),
                  ("neighbors", .vDict [("B", .vInt 1), ("C", .vInt 1)]),
                  ("originator", .vStr "A")]),
         ("chC",
          .vDict [("type", .vStr "lsp"), ("from", .vStr "chA"), ("to", .vStr "*"),
                  ("hops", .vInt 8), ("headers", .vDict [("alg", .vStr "lsr")]),
                  ("payload", .vStr ""),
                  ("neighbors", .vDict [("B", .vInt 1), ("C", .vInt 1)]),
                  ("originator", .vStr "A")])] ∧
    (∀ p ∈ (emit_lsp (fun n => "ch" ++ n) ⟨"A", "chA", ["B", "C"], [], 0, [], []⟩).2,
      get_packet_id p.2 "fresh-uuid" = .vStr "fresh-uuid") ∧
    (emit_lsp (fun n => "ch" ++ n) ⟨"A", "chA", ["B", "C"], [], 0, [], []⟩).1.sequence_number
      = 1 ∧
    (∀ p ∈ (interactive_emit_lsp (fun n => "ch" ++ n)
        ⟨"A", "chA", ["B", "C"], [], 0, [], []⟩).2,
      pget p.2 "headers"
          = some (.vList [.vDict [("id", .vStr "LSP-A-0")]]) ∧
      validate_packet p.2 = false ∧
      get_packet_id p.2 "fresh-uuid" = .vStr "fresh-uuid") := by
  decide

/-- **C6** — flooding dedup is ineffective because `make_packet` never stores
an id in `headers`: `send` computes a *fresh* identity, marks it seen, but the
flooded packet carries no id, so (i) a node receiving the same packet twice
forwards it twice (each check synthesises a new uuid never in `seen`), (ii)
the originator re-floods its own broadcast when it comes back, and (iii) a
packet addressed to a node is *delivered* twice when received twice.  Each
conjunct evaluates the engine at the concrete failing input. -/
theorem C6_flooding_dedup_ineffective :
    (flood_send (fun n => "ch" ++ n) ⟨"A", "chA", ["B"], []⟩ "D" (.vStr "hi") 6 "f0"
      = (⟨"A", "chA", ["B"], [.vStr "f0"]⟩,
         [("chB", make_packet "message" "chA" "chD" 6 "flooding" none none (.vStr "hi"))])) ∧
    (flood_on_packet (fun n => "ch" ++ n) ⟨"B", "chB", ["C"], []⟩
        (make_packet "message" "chA" "chD" 6 "flooding" none none (.vStr "hi")) "f1"
      = (⟨"B", "chB", ["C"], [.vStr "f1"]⟩,
         [("chC",
           .vDict [("type", .vStr "message"), ("from", .vStr "chA"), ("to", .vStr "chD"),
                   ("hops", .vInt 5), ("headers", .vDict [("alg", .vStr "flooding")]),
                   ("payload", .vStr "hi")])], false)) ∧
    (flood_on_packet (fun n => "ch" ++ n) ⟨"B", "chB", ["C"], [.vStr "f1"]⟩
        (make_packet "message" "chA" "chD" 6 "flooding" none none (.vStr "hi")) "f2"
      = (⟨"B", "chB", ["C"], [.vStr "f1", .vStr "f2"]⟩,
         [("chC",
           .vDict [("type", .vStr "message"), ("from", .vStr "chA"), ("to", .vStr "chD"),
                   ("hops", .vInt 5), ("headers", .vDict [("alg", .vStr "flooding")]),
                   ("payload", .vStr "hi")])], false)) ∧
    (flood_on_packet (fun n => "ch" ++ n) ⟨"A", "chA", ["B"], [.vStr "f0"]⟩
        (make_packet "message" "chA" "chD" 6 "flooding" none none (.vStr "hi")) "f3"
      = (⟨"A", "chA", ["B"], [.vStr "f0", .vStr "f3"]⟩,
         [("chB",
           .vDict [("type", .vStr "message"), ("from", .vStr "chA"), ("to", .vStr "chD"),
                   ("hops", .vInt 5), ("headers", .vDict [("alg", .vStr "flooding")]),
                   ("payload", .vStr "hi")])], false)) ∧
    ((flood_on_packet (fun n => "ch" ++ n) ⟨"B", "chB", ["C"], []⟩
        (make_packet "message" "chA" "chB" 6 "flooding" none none (.vStr "yo")) "g1").2.2
      = true) ∧
    ((flood_on_packet (fun n => "ch" ++ n) ⟨"B", "chB", ["C"], [.vStr "g1"]⟩
        (make_packet "message" "chA" "chB" 6 "flooding" none none (.vStr "yo")) "g2").2.2
      = true) := by
  decide

/-! ## Correctness of `routing_table_for` (claim C1)

The development follows the classic certificate argument: after the loop
drains the queue, (i) no edge is relaxable and `dist source = 0`, which gives
`dist ≤` every path cost by induction over the path, and (ii) every finite
`dist` is realised by an actual path, which gives the converse bound.  A ghost
list `proc` of settled nodes (in settlement order) and the last popped
priority `lp` support the remaining obligations: that the fuel drains the
queue, and that the backward `prev` walk reaches a neighbour of the source. -/

theorem dget_dset_self {β : Type} (d : List (String × β)) (k : String) (v : β) :
    dget (dset d k v) k = some v := by
  induction d with
  | nil => simp [dget, dset]
  | cons p rest ih =>
      by_cases h : p.1 = k
      · simp [dget, dset, h]
      · simp [dget, dset, h, ih]

theorem dget_dset_ne {β : Type} (d : List (String × β)) {k k' : String} (v : β)
    (h : k' ≠ k) : dget (dset d k v) k' = dget d k' := by
  have hkk : ¬ (k = k') := fun hh => h hh.symm
  induction d with
  | nil => simp only [dset, dget, if_neg hkk]
  | cons p rest ih =>
      by_cases hp : p.1 = k
      · simp only [dset, if_pos hp, dget, hp, if_neg hkk]
      · simp only [dset, if_neg hp, dget, ih]

theorem dget_mem {β : Type} {d : List (String × β)} {k : String} {v : β}
    (h : dget d k = some v) : (k, v) ∈ d := by
  induction d with
  | nil => simp [dget] at h
  | cons p rest ih =>
      by_cases hp : p.1 = k
      · simp only [dget, if_pos hp] at h
        cases h
        exact List.mem_cons.mpr (Or.inl (by rw [← hp]))
      · simp only [dget, if_neg hp] at h
        exact List.mem_cons_of_mem _ (ih h)

theorem dget_eq_none {β : Type} {d : List (String × β)} {k : String}
    (h : k ∉ d.map Prod.fst) : dget d k = none := by
  induction d with
  | nil => rfl
  | cons p rest ih =>
      simp only [List.map_cons, List.mem_cons, not_or] at h
      simp only [dget]
      rw [if_neg (fun hh => h.1 hh.symm), ih h.2]

theorem mem_keys_of_dget {β : Type} {d : List (String × β)} {k : String} {v : β}
    (h : dget d k = some v) : k ∈ d.map Prod.fst := by
  by_contra hk
  rw [dget_eq_none hk] at h
  cases h

theorem dset_keys_of_mem {β : Type} {d : List (String × β)} {k : String} (v : β)
    (h : k ∈ d.map Prod.fst) :
    (dset d k v).map Prod.fst = d.map Prod.fst := by
  induction d with
  | nil => simp at h
  | cons p rest ih =>
      by_cases hp : p.1 = k
      · simp [dset, hp]
      · simp only [List.map_cons, List.mem_cons, not_or] at h
        rcases h with h | h
        · exact absurd h.symm hp
        · simp [dset, hp, ih h]

theorem dset_keys_of_not_mem {β : Type} {d : List (String × β)} {k : String} (v : β)
    (h : k ∉ d.map Prod.fst) :
    (dset d k v).map Prod.fst = d.map Prod.fst ++ [k] := by
  induction d with
  | nil => simp [dset]
  | cons p rest ih =>
      simp only [List.map_cons, List.mem_cons, not_or] at h
      simp only [dset]
      rw [if_neg (fun hh => h.1 hh.symm)]
      simp [ih h.2]

theorem dset_keys_nodup {β : Type} {d : List (String × β)} {k : String} (v : β)
    (h : (d.map Prod.fst).Nodup) : ((dset d k v).map Prod.fst).Nodup := by
  by_cases hk : k ∈ d.map Prod.fst
  · rw [dset_keys_of_mem v hk]; exact h
  · rw [dset_keys_of_not_mem v hk]
    exact List.Nodup.append h (List.nodup_singleton _)
      ((List.disjoint_singleton).mpr hk)

theorem mem_dset_keys {β : Type} {d : List (String × β)} {k k' : String} (v : β)
    (h : k' ∈ d.map Prod.fst) : k' ∈ (dset d k v).map Prod.fst := by
  by_cases hk : k ∈ d.map Prod.fst
  · rwa [dset_keys_of_mem v hk]
  · rw [dset_keys_of_not_mem v hk]; exact List.mem_append_left _ h

theorem distGet_dset_self (dist : List (String × WithTop ℚ)) (v : String)
    (x : WithTop ℚ) : distGet (dset dist v x) v = x := by
  simp [distGet, dget_dset_self]

theorem distGet_dset_ne (dist : List (String × WithTop ℚ)) {v v' : String}
    (x : WithTop ℚ) (h : v' ≠ v) : distGet (dset dist v x) v' = distGet dist v' := by
  simp [distGet, dget_dset_ne _ _ h]

theorem prevGet_dset_self (prev : List (String × Option String)) (v : String)
    (x : Option String) : prevGet (dset prev v x) v = x := by
  simp [prevGet, dget_dset_self]

theorem prevGet_dset_ne (prev : List (String × Option String)) {v v' : String}
    (x : Option String) (h : v' ≠ v) : prevGet (dset prev v x) v' = prevGet prev v' := by
  simp [prevGet, dget_dset_ne _ _ h]

theorem prevGet_isSome_mem_keys {prev : List (String × Option String)} {v : String}
    (h : (prevGet prev v).isSome) : v ∈ prev.map Prod.fst := by
  rcases hd : dget prev v with _ | p
  · rw [prevGet, hd] at h
    simp at h
  · exact mem_keys_of_dget hd

/-! ### The priority-queue order -/

theorem pqle_total (x y : ℚ × String) : pqle x y ∨ pqle y x := by
  rcases lt_trichotomy x.1 y.1 with h | h | h
  · exact Or.inl (Or.inl h)
  · rcases le_total x.2.data y.2.data with h2 | h2
    · exact Or.inl (Or.inr ⟨h, h2⟩)
    · exact Or.inr (Or.inr ⟨h.symm, h2⟩)
  · exact Or.inr (Or.inl h)

theorem pqle_trans {x y z : ℚ × String} (h1 : pqle x y) (h2 : pqle y z) : pqle x z := by
  rcases h1 with h1 | ⟨h1, h1'⟩
  · rcases h2 with h2 | ⟨h2, _⟩
    · exact Or.inl (h1.trans h2)
    · exact Or.inl (h2 ▸ h1)
  · rcases h2 with h2 | ⟨h2, h2'⟩
    · exact Or.inl (h1 ▸ h2)
    · exact Or.inr ⟨h1.trans h2, h1'.trans h2'⟩

instance : IsTotal (ℚ × String) pqle := ⟨pqle_total⟩
instance : IsTrans (ℚ × String) pqle := ⟨fun _ _ _ => pqle_trans⟩

theorem pqle_fst_le {x y : ℚ × String} (h : pqle x y) : x.1 ≤ y.1 := by
  rcases h with h | ⟨h, _⟩
  · exact h.le
  · exact h.le

theorem mem_heappush {pq : List (ℚ × String)} {x e : ℚ × String} :
    e ∈ heappush pq x ↔ e = x ∨ e ∈ pq := by
  simp [heappush, List.mem_orderedInsert]

theorem heappush_sorted {pq : List (ℚ × String)} (h : pq.Sorted pqle)
    (x : ℚ × String) : (heappush pq x).Sorted pqle :=
  List.Sorted.orderedInsert x pq h

theorem heappush_perm (pq : List (ℚ × String)) (x : ℚ × String) :
    List.Perm (heappush pq x) (x :: pq) :=
  List.perm_orderedInsert pqle x pq

theorem length_heappush (pq : List (ℚ × String)) (x : ℚ × String) :
    (heappush pq x).length = pq.length + 1 := by
  simpa using (heappush_perm pq x).length_eq

theorem countP_heappush (pq : List (ℚ × String)) (x : ℚ × String)
    (p : ℚ × String → Bool) :
    (heappush pq x).countP p = pq.countP p + if p x then 1 else 0 := by
  rw [(heappush_perm pq x).countP_eq]
  simp [List.countP_cons, Nat.add_comm]

/-! ### Graph well-formedness consequences -/

theorem hasEdge_of_mem_adj {g : Graph} {u : String} {vw : String × ℚ}
    (h : vw ∈ adjOf g u) : HasEdge g u vw.1 vw.2 := h

theorem adj_pair_mem {g : Graph} {u : String} {vw : String × ℚ}
    (h : vw ∈ adjOf g u) : ∃ a, (u, a) ∈ g ∧ vw ∈ a := by
  rcases hd : dget g u with _ | a
  · rw [adjOf, hd] at h
    simp at h
  · rw [adjOf, hd] at h
    exact ⟨a, dget_mem hd, h⟩

theorem wf_edge_nonneg {g : Graph} (wf : WellFormedGraph g) {u : String}
    {vw : String × ℚ} (h : vw ∈ adjOf g u) : 0 ≤ vw.2 := by
  obtain ⟨a, hmem, hvw⟩ := adj_pair_mem h
  exact wf.2.2.1 (u, a) hmem vw hvw

theorem wf_edge_target_ne {g : Graph} (wf : WellFormedGraph g) {u : String}
    {vw : String × ℚ} (h : vw ∈ adjOf g u) : vw.1 ≠ "" := by
  obtain ⟨a, hmem, hvw⟩ := adj_pair_mem h
  exact (wf.2.2.2 (u, a) hmem).2 vw hvw

theorem wf_key_ne {g : Graph} (wf : WellFormedGraph g) {u : String}
    (h : u ∈ gkeys g) : u ≠ "" := by
  simp only [gkeys, List.mem_map] at h
  obtain ⟨p, hp, rfl⟩ := h
  exact (wf.2.2.2 p hp).1

theorem dget_map_const {β γ : Type} (l : List (String × β)) (c : γ) (k : String) :
    dget (l.map fun p => (p.1, c)) k = none ∨ dget (l.map fun p => (p.1, c)) k = some c := by
  induction l with
  | nil => left; rfl
  | cons p rest ih =>
      by_cases hp : p.1 = k
      · right; simp [dget, hp]
      · simpa [dget, hp] using ih

/-- "No relaxable out-edge, or a live queue entry": the per-node disjunction
that, at loop exit (empty queue), certifies that every edge is fully relaxed. -/
def RelaxDisj (g : Graph) (st : DState) (u : String) : Prop :=
  (∀ vw ∈ adjOf g u, distGet st.dist vw.1 ≤ distGet st.dist u + (vw.2 : WithTop ℚ)) ∨
  ∃ e ∈ st.pq, e.2 = u ∧ ((e.1 : ℚ) : WithTop ℚ) = distGet st.dist u

/-- The loop invariant: `st` is the mutable state, `proc` the ghost list of
settled nodes in settlement order, `lp` the last popped priority. -/
structure Core (g : Graph) (source : String) (st : DState)
    (proc : List String) (lp : ℚ) : Prop where
  sorted : st.pq.Sorted pqle
  lp_le : ∀ e ∈ st.pq, lp ≤ e.1
  lp_nonneg : 0 ≤ lp
  dist_source : distGet st.dist source = 0
  entry_ge : ∀ e ∈ st.pq, distGet st.dist e.2 ≤ ((e.1 : ℚ) : WithTop ℚ)
  live_count : ∀ v, (st.pq.countP fun e =>
      decide (e.2 = v ∧ ((e.1 : ℚ) : WithTop ℚ) = distGet st.dist v)) ≤ 1
  reach : ∀ v (q : ℚ), distGet st.dist v = (q : WithTop ℚ) → IsPath g source v q
  live : ∀ v, distGet st.dist v ≠ ⊤ →
      v ∈ proc ∨ ∃ e ∈ st.pq, e.2 = v ∧ ((e.1 : ℚ) : WithTop ℚ) = distGet st.dist v
  proc_nodup : proc.Nodup
  proc_fin : ∀ x ∈ proc, distGet st.dist x ≠ ⊤
  proc_le : ∀ x ∈ proc, distGet st.dist x ≤ ((lp : ℚ) : WithTop ℚ)
  proc_nolive : ∀ x ∈ proc, ∀ e ∈ st.pq, e.2 = x →
      ((e.1 : ℚ) : WithTop ℚ) ≠ distGet st.dist x
  proc_names : ∀ x ∈ proc, x ≠ ""
  pq_names : ∀ e ∈ st.pq, e.2 ≠ ""
  prev_source : prevGet st.prev source = none
  prev_set : ∀ v, distGet st.dist v ≠ ⊤ → v ≠ source → (prevGet st.prev v).isSome
  prev_edge : ∀ v p, prevGet st.prev v = some p →
      p ∈ proc ∧ ∃ w : ℚ, HasEdge g p v w ∧
        distGet st.dist v = distGet st.dist p + (w : WithTop ℚ)
  prev_order : ∀ i : Fin proc.length, ∀ p, prevGet st.prev (proc.get i) = some p →
      ∃ j : Fin proc.length, j.1 < i.1 ∧ proc.get j = p
  prev_keys_nodup : (st.prev.map Prod.fst).Nodup
  prev_keys_src : source ∈ st.prev.map Prod.fst

/-- Loop potential: the queue length plus the out-degrees of the unsettled
graph keys.  It strictly decreases at every iteration, bounding the number of
pops. -/
def phi (g : Graph) (st : DState) (proc : List String) : Nat :=
  st.pq.length + (((gkeys g).filter fun u => u ∉ proc).map fun u => (adjOf g u).length).sum

section DijkstraInv

variable {g : Graph} {source : String}

theorem initState_dist_src (g : Graph) (source : String) :
    distGet (initState g source).dist source = 0 := by
  simp [initState, distGet_dset_self]

theorem initState_dist_ne (g : Graph) (source : String) {v : String} (h : v ≠ source) :
    distGet (initState g source).dist v = ⊤ := by
  simp only [initState]
  rw [distGet, dget_dset_ne _ _ h]
  rcases dget_map_const g (⊤ : WithTop ℚ) v with h' | h' <;> simp [h']

theorem initState_prev (g : Graph) (source : String) (v : String) :
    prevGet (initState g source).prev v = none := by
  rcases dget_map_const g (none : Option String) v with h | h <;>
    simp [initState, prevGet, h]

theorem initState_prev_keys (g : Graph) (source : String) :
    (initState g source).prev.map Prod.fst = gkeys g := by
  simp [initState, gkeys]

theorem init_core (wf : WellFormedGraph g) (hs : source ∈ gkeys g) :
    Core g source (initState g source) [] 0 ∧
      ∀ u, RelaxDisj g (initState g source) u := by
  have hsrc0 : distGet (initState g source).dist source = 0 := initState_dist_src g source
  constructor
  · refine ⟨?_, ?_, le_refl 0, hsrc0, ?_, ?_, ?_, ?_, List.nodup_nil, ?_, ?_, ?_, ?_, ?_,
      initState_prev g source source, ?_, ?_, ?_, ?_, ?_⟩
    · simp [initState, List.sorted_singleton]
    · intro e he
      simp only [initState, List.mem_singleton] at he
      subst he
      exact le_refl 0
    · intro e he
      simp only [initState, List.mem_singleton] at he
      subst he
      simp [hsrc0]
    · intro v
      simp only [initState]
      exact (List.countP_le_length _).trans (by simp)
    · intro v q hq
      by_cases hv : v = source
      · subst hv
        rw [hsrc0] at hq
        have : (0 : ℚ) = q := by exact_mod_cast hq
        rw [← this]
        exact IsPath.nil
      · rw [initState_dist_ne g source hv] at hq
        cases hq
    · intro v hv
      by_cases hvs : v = source
      · right
        refine ⟨((0 : ℚ), source), by simp [initState], by rw [hvs], ?_⟩
        rw [hvs]
        simp [hsrc0]
      · exact absurd (initState_dist_ne g source hvs) hv
    · intro x hx; cases hx
    · intro x hx; cases hx
    · intro x hx; cases hx
    · intro x hx; cases hx
    · intro e he
      simp only [initState, List.mem_singleton] at he
      subst he
      exact wf_key_ne wf hs
    · intro v hv hvs
      exact absurd (initState_dist_ne g source hvs) hv
    · intro v p hp
      rw [initState_prev g source v] at hp
      cases hp
    · intro i
      cases i.isLt
    · rw [initState_prev_keys]
      exact wf.1
    · rw [initState_prev_keys]
      exact hs
  · intro u
    by_cases hu : u = source
    · right
      refine ⟨((0 : ℚ), source), by simp [initState], by rw [hu], ?_⟩
      rw [hu]
      simp [hsrc0]
    · left
      intro vw _
      rw [initState_dist_ne g source hu]
      simp

end DijkstraInv

section DijkstraStep

variable {g : Graph} {source : String}

/-- One relaxation step of the settled node `u` (popped at priority
`d = dist u`) preserves the invariant, keeps `dist u`, only lowers distances,
discharges the relaxed edge, and grows the queue by at most one entry. -/
theorem relaxOne_pres (wf : WellFormedGraph g) {u : String} {d : ℚ}
    {P : List String} {st : DState} {vw : String × ℚ}
    (hC : Core g source st P d)
    (hrelo : ∀ x, x ≠ u → RelaxDisj g st x)
    (hdu : distGet st.dist u = (d : WithTop ℚ))
    (huP : u ∈ P)
    (hedge : vw ∈ adjOf g u) :
    Core g source (relaxOne u d st vw) P d ∧
    (∀ x, x ≠ u → RelaxDisj g (relaxOne u d st vw) x) ∧
    distGet (relaxOne u d st vw).dist u = (d : WithTop ℚ) ∧
    (∀ x, distGet (relaxOne u d st vw).dist x ≤ distGet st.dist x) ∧
    distGet (relaxOne u d st vw).dist vw.1 ≤ ((d + vw.2 : ℚ) : WithTop ℚ) ∧
    (relaxOne u d st vw).pq.length ≤ st.pq.length + 1 := by
  obtain ⟨v, w⟩ := vw
  have hw0 : (0 : ℚ) ≤ w := wf_edge_nonneg wf hedge
  have hvne : v ≠ "" := wf_edge_target_ne wf hedge
  by_cases hlt : (((d + w : ℚ)) : WithTop ℚ) < distGet st.dist v
  case neg =>
    have heq : relaxOne u d st (v, w) = st := by
      simp only [relaxOne]
      rw [if_neg hlt]
    rw [heq]
    exact ⟨hC, hrelo, hdu, fun x => le_refl _, not_lt.mp hlt, Nat.le_succ _⟩
  case pos =>
    have hd0 : (0 : ℚ) ≤ d := hC.lp_nonneg
    have hvP : v ∉ P := by
      intro hv
      have h1 : distGet st.dist v ≤ ((d : ℚ) : WithTop ℚ) := hC.proc_le v hv
      have h2 : ((d + w : ℚ) : WithTop ℚ) < ((d : ℚ) : WithTop ℚ) := lt_of_lt_of_le hlt h1
      have h3 : d + w < d := by exact_mod_cast h2
      exact absurd h3 (not_lt.mpr (le_add_of_nonneg_right hw0))
    have hvu : v ≠ u := fun h => hvP (h ▸ huP)
    have hvsrc : v ≠ source := by
      intro hv
      rw [hv, hC.dist_source] at hlt
      have : ((d + w : ℚ) : WithTop ℚ) < ((0 : ℚ) : WithTop ℚ) := by
        simpa using hlt
      have h3 : d + w < 0 := by exact_mod_cast this
      exact absurd h3 (not_lt.mpr (add_nonneg hd0 hw0))
    have heq : relaxOne u d st (v, w)
        = DState.mk (dset st.dist v ((d + w : ℚ) : WithTop ℚ))
            (dset st.prev v (some u)) (heappush st.pq (d + w, v)) := by
      simp only [relaxOne]
      rw [if_pos hlt]
    rw [heq]
    have hdv : distGet (dset st.dist v ((d + w : ℚ) : WithTop ℚ)) v
        = ((d + w : ℚ) : WithTop ℚ) := distGet_dset_self _ _ _
    have hdo : ∀ x, x ≠ v →
        distGet (dset st.dist v ((d + w : ℚ) : WithTop ℚ)) x = distGet st.dist x :=
      fun x hx => distGet_dset_ne _ _ hx
    have hpo : ∀ x, x ≠ v →
        prevGet (dset st.prev v (some u)) x = prevGet st.prev x :=
      fun x hx => prevGet_dset_ne _ _ hx
    have hlow : ∀ x, distGet (dset st.dist v ((d + w : ℚ) : WithTop ℚ)) x
        ≤ distGet st.dist x := by
      intro x
      by_cases hx : x = v
      · rw [hx, hdv]; exact le_of_lt hlt
      · rw [hdo x hx]
    refine ⟨⟨?_, ?_, hC.lp_nonneg, ?_, ?_, ?_, ?_, ?_, hC.proc_nodup, ?_, ?_, ?_,
        hC.proc_names, ?_, ?_, ?_, ?_, ?_, ?_, ?_⟩, ?_, ?_, hlow, ?_, ?_⟩
    · exact heappush_sorted hC.sorted _
    · intro e he
      rcases mem_heappush.mp he with rfl | he
      · exact le_add_of_nonneg_right hw0
      · exact hC.lp_le e he
    · rw [hdo source (fun h => hvsrc h.symm)]
      exact hC.dist_source
    · intro e he
      rcases mem_heappush.mp he with rfl | he
      · rw [hdv]
      · by_cases hx : e.2 = v
        · have h2 := hC.entry_ge e he
          rw [hx] at h2
          rw [hx, hdv]
          exact le_of_lt (lt_of_lt_of_le hlt h2)
        · rw [hdo _ hx]
          exact hC.entry_ge e he
    · intro x
      dsimp only
      rw [(heappush_perm st.pq (d + w, v)).countP_eq, List.countP_cons]
      dsimp only
      by_cases hx : x = v
      · have hz : (st.pq.countP fun e =>
            decide (e.2 = x ∧ ((e.1 : ℚ) : WithTop ℚ)
              = distGet (dset st.dist v ((d + w : ℚ) : WithTop ℚ)) x)) = 0 := by
          rw [List.countP_eq_zero]
          intro e he
          simp only [decide_eq_true_eq, not_and]
          intro he2 hval
          rw [hx, hdv] at hval
          have h1 : distGet st.dist v ≤ ((e.1 : ℚ) : WithTop ℚ) := by
            have h2 := hC.entry_ge e he
            rwa [he2, hx] at h2
          rw [hval] at h1
          exact absurd h1 (not_le.mpr hlt)
        rw [hz]
        split <;> simp
      · have h1 : (fun e : ℚ × String =>
            decide (e.2 = x ∧ ((e.1 : ℚ) : WithTop ℚ)
              = distGet (dset st.dist v ((d + w : ℚ) : WithTop ℚ)) x))
            = fun e : ℚ × String =>
            decide (e.2 = x ∧ ((e.1 : ℚ) : WithTop ℚ) = distGet st.dist x) := by
          funext e
          rw [hdo x hx]
        rw [h1, hdo x hx]
        have h3 : (decide (v = x ∧
            ((d + w : ℚ) : WithTop ℚ) = distGet st.dist x)) = false := by
          rw [decide_eq_false_iff_not]
          intro hcon
          exact hx hcon.1.symm
        rw [h3]
        simpa using hC.live_count x
    · intro x q hq
      by_cases hx : x = v
      · subst hx
        rw [hdv] at hq
        have : d + w = q := by exact_mod_cast hq
        rw [← this]
        exact IsPath.snoc (hC.reach u d hdu) hedge
      · rw [hdo x hx] at hq
        exact hC.reach x q hq
    · intro x hx
      by_cases hxv : x = v
      · subst hxv
        right
        exact ⟨(d + w, x), mem_heappush.mpr (Or.inl rfl), rfl, hdv.symm⟩
      · rw [hdo x hxv] at hx
        rcases hC.live x hx with h | ⟨e, he, he2, he3⟩
        · exact Or.inl h
        · exact Or.inr ⟨e, mem_heappush.mpr (Or.inr he), he2, by rw [hdo x hxv, he3]⟩
    · intro x hx
      rw [hdo x (fun h => hvP (h ▸ hx))]
      exact hC.proc_fin x hx
    · intro x hx
      rw [hdo x (fun h => hvP (h ▸ hx))]
      exact hC.proc_le x hx
    · intro x hx e he
      rcases mem_heappush.mp he with rfl | he
      · intro h2
        have h2' : v = x := h2
        exfalso
        apply hvP
        rw [h2']
        exact hx
      · intro h2
        rw [hdo x (fun h => hvP (h ▸ hx))]
        exact hC.proc_nolive x hx e he h2
    · intro e he
      rcases mem_heappush.mp he with rfl | he
      · exact hvne
      · exact hC.pq_names e he
    · rw [hpo source (fun h => hvsrc h.symm)]
      exact hC.prev_source
    · intro x hx hxs
      by_cases hxv : x = v
      · rw [hxv, prevGet_dset_self]
        rfl
      · rw [hpo x hxv]
        rw [hdo x hxv] at hx
        exact hC.prev_set x hx hxs
    · intro x p hp
      by_cases hxv : x = v
      · subst hxv
        rw [prevGet_dset_self] at hp
        cases hp
        refine ⟨huP, w, hedge, ?_⟩
        rw [hdv, hdo u hvu.symm, hdu]
        push_cast
        rfl
      · rw [hpo x hxv] at hp
        obtain ⟨hpP, w', hw', hdist⟩ := hC.prev_edge x p hp
        refine ⟨hpP, w', hw', ?_⟩
        rw [hdo x hxv, hdo p (fun h => hvP (h ▸ hpP)), hdist]
    · intro i p hp
      have hne : P.get i ≠ v := fun h => hvP (h ▸ List.get_mem P i.1 i.2)
      rw [hpo _ hne] at hp
      exact hC.prev_order i p hp
    · exact dset_keys_nodup _ hC.prev_keys_nodup
    · exact mem_dset_keys _ hC.prev_keys_src
    · intro x hxu
      by_cases hxv : x = v
      · subst hxv
        right
        exact ⟨(d + w, x), mem_heappush.mpr (Or.inl rfl), rfl, hdv.symm⟩
      · rcases hrelo x hxu with h | ⟨e, he, he2, he3⟩
        · left
          intro vw' hvw'
          calc distGet (dset st.dist v ((d + w : ℚ) : WithTop ℚ)) vw'.1
              ≤ distGet st.dist vw'.1 := hlow vw'.1
            _ ≤ distGet st.dist x + (vw'.2 : WithTop ℚ) := h vw' hvw'
            _ = distGet (dset st.dist v ((d + w : ℚ) : WithTop ℚ)) x
                  + (vw'.2 : WithTop ℚ) := by rw [hdo x hxv]
        · right
          exact ⟨e, mem_heappush.mpr (Or.inr he), he2, by rw [hdo x hxv, he3]⟩
    · rw [hdo u hvu.symm]
      exact hdu
    · rw [hdv]
    · rw [heq] at *
      simpa using Nat.le_of_eq (length_heappush st.pq (d + w, v))

end DijkstraStep

section DijkstraFold

variable {g : Graph} {source : String}

/-- Relaxing any sublist of `u`'s out-edges preserves the invariant and
discharges those edges. -/
theorem relax_fold (wf : WellFormedGraph g) {u : String} {d : ℚ} {P : List String} :
    ∀ (pending : Adj) (st : DState),
      Core g source st P d →
      (∀ x, x ≠ u → RelaxDisj g st x) →
      distGet st.dist u = (d : WithTop ℚ) →
      u ∈ P →
      (∀ vw ∈ pending, vw ∈ adjOf g u) →
      Core g source (pending.foldl (relaxOne u d) st) P d ∧
      (∀ x, x ≠ u → RelaxDisj g (pending.foldl (relaxOne u d) st) x) ∧
      distGet (pending.foldl (relaxOne u d) st).dist u = (d : WithTop ℚ) ∧
      (∀ x, distGet (pending.foldl (relaxOne u d) st).dist x ≤ distGet st.dist x) ∧
      (∀ vw ∈ pending, distGet (pending.foldl (relaxOne u d) st).dist vw.1
          ≤ ((d + vw.2 : ℚ) : WithTop ℚ)) ∧
      (pending.foldl (relaxOne u d) st).pq.length ≤ st.pq.length + pending.length := by
  intro pending
  induction pending with
  | nil =>
      intro st hC hrelo hdu huP hmem
      exact ⟨hC, hrelo, hdu, fun x => le_refl _, by simp, by simp⟩
  | cons vw rest ih =>
      intro st hC hrelo hdu huP hmem
      have hedge : vw ∈ adjOf g u := hmem vw (List.mem_cons_self _ _)
      obtain ⟨hC', hrelo', hdu', hlow', hdone', hlen'⟩ :=
        relaxOne_pres wf hC hrelo hdu huP hedge
      obtain ⟨hC2, hrelo2, hdu2, hlow2, hrest2, hlen2⟩ :=
        ih (relaxOne u d st vw) hC' hrelo' hdu' huP
          (fun x hx => hmem x (List.mem_cons_of_mem _ hx))
      simp only [List.foldl_cons]
      refine ⟨hC2, hrelo2, hdu2, ?_, ?_, ?_⟩
      · intro x
        exact (hlow2 x).trans (hlow' x)
      · intro vw' hvw'
        rcases List.mem_cons.mp hvw' with rfl | hvw'
        · exact (hlow2 vw'.1).trans hdone'
        · exact hrest2 vw' hvw'
      · calc (rest.foldl (relaxOne u d) (relaxOne u d st vw)).pq.length
            ≤ (relaxOne u d st vw).pq.length + rest.length := hlen2
          _ ≤ st.pq.length + 1 + rest.length := by omega
          _ = st.pq.length + (vw :: rest).length := by simp; omega

/-- A live pop (`d = dist u`): settling `u` and relaxing all its out-edges
preserves the invariant with `u` appended to the settlement list. -/
theorem step_live (wf : WellFormedGraph g) {dist : List (String × WithTop ℚ)}
    {prev : List (String × Option String)} {d : ℚ} {u : String}
    {rest : List (ℚ × String)} {proc : List String} {lp : ℚ}
    (hC : Core g source ⟨dist, prev, (d, u) :: rest⟩ proc lp)
    (hrel : ∀ x, RelaxDisj g ⟨dist, prev, (d, u) :: rest⟩ x)
    (hlive : ((d : ℚ) : WithTop ℚ) = distGet dist u) :
    Core g source ((adjOf g u).foldl (relaxOne u d) ⟨dist, prev, rest⟩) (proc ++ [u]) d ∧
    (∀ x, RelaxDisj g ((adjOf g u).foldl (relaxOne u d) ⟨dist, prev, rest⟩) x) ∧
    u ∉ proc ∧
    ((adjOf g u).foldl (relaxOne u d) ⟨dist, prev, rest⟩).pq.length
      ≤ rest.length + (adjOf g u).length := by
  have hhead : ((d, u) : ℚ × String) ∈ (d, u) :: rest := List.mem_cons_self _ _
  have hd_lp : lp ≤ d := hC.lp_le (d, u) hhead
  have hd0 : (0 : ℚ) ≤ d := le_trans hC.lp_nonneg hd_lp
  have hsorted := List.sorted_cons.mp hC.sorted
  have hrest_ge : ∀ e ∈ rest, d ≤ e.1 := fun e he => pqle_fst_le (hsorted.1 e he)
  have huproc : u ∉ proc := by
    intro h
    exact hC.proc_nolive u h (d, u) hhead rfl hlive
  have hu_ne : u ≠ "" := hC.pq_names (d, u) hhead
  have hcount : (((d, u) :: rest).countP fun e =>
      decide (e.2 = u ∧ ((e.1 : ℚ) : WithTop ℚ) = distGet dist u)) ≤ 1 :=
    hC.live_count u
  have hsplit : (((d, u) :: rest).countP fun e =>
      decide (e.2 = u ∧ ((e.1 : ℚ) : WithTop ℚ) = distGet dist u))
      = (rest.countP fun e =>
      decide (e.2 = u ∧ ((e.1 : ℚ) : WithTop ℚ) = distGet dist u)) + 1 := by
    rw [List.countP_cons]
    congr 1
    simp [hlive]
  have hcount0 : (rest.countP fun e =>
      decide (e.2 = u ∧ ((e.1 : ℚ) : WithTop ℚ) = distGet dist u)) = 0 := by omega
  have hnolive_u : ∀ e ∈ rest, e.2 = u → ((e.1 : ℚ) : WithTop ℚ) ≠ distGet dist u := by
    intro e he he2
    have := (List.countP_eq_zero.mp hcount0) e he
    simp only [decide_eq_true_eq, not_and] at this
    exact this he2
  have hPnodup : (proc ++ [u]).Nodup :=
    List.Nodup.append hC.proc_nodup (List.nodup_singleton u)
      (fun x hx hxu => huproc (by rwa [List.mem_singleton.mp hxu] at hx))
  have hmidC : Core g source ⟨dist, prev, rest⟩ (proc ++ [u]) d := by
    refine ⟨hsorted.2, hrest_ge, hd0, hC.dist_source, ?_, ?_, hC.reach, ?_, hPnodup,
      ?_, ?_, ?_, ?_, ?_, hC.prev_source, hC.prev_set, ?_, ?_,
      hC.prev_keys_nodup, hC.prev_keys_src⟩
    · exact fun e he => hC.entry_ge e (List.mem_cons_of_mem _ he)
    · intro v
      have h1 : (((d, u) :: rest).countP fun e =>
          decide (e.2 = v ∧ ((e.1 : ℚ) : WithTop ℚ) = distGet dist v)) ≤ 1 :=
        hC.live_count v
      rw [List.countP_cons] at h1
      show (rest.countP fun e =>
          decide (e.2 = v ∧ ((e.1 : ℚ) : WithTop ℚ) = distGet dist v)) ≤ 1
      omega
    · intro v hv
      rcases hC.live v hv with h | ⟨e, he, he2, he3⟩
      · exact Or.inl (List.mem_append_left _ h)
      · rcases List.mem_cons.mp he with rfl | he
        · left
          apply List.mem_append_right
          simp [← he2]
        · exact Or.inr ⟨e, he, he2, he3⟩
    · intro x hx
      rcases List.mem_append.mp hx with hx | hx
      · exact hC.proc_fin x hx
      · show distGet dist x ≠ ⊤
        rw [List.mem_singleton.mp hx, ← hlive]
        simp
    · intro x hx
      rcases List.mem_append.mp hx with hx | hx
      · exact le_trans (hC.proc_le x hx) (by exact_mod_cast hd_lp)
      · show distGet dist x ≤ ((d : ℚ) : WithTop ℚ)
        rw [List.mem_singleton.mp hx, ← hlive]
    · intro x hx e he he2
      rcases List.mem_append.mp hx with hx | hx
      · exact hC.proc_nolive x hx e (List.mem_cons_of_mem _ he) he2
      · rw [List.mem_singleton.mp hx] at he2 ⊢
        exact hnolive_u e he he2
    · intro x hx
      rcases List.mem_append.mp hx with hx | hx
      · exact hC.proc_names x hx
      · rw [List.mem_singleton.mp hx]
        exact hu_ne
    · exact fun e he => hC.pq_names e (List.mem_cons_of_mem _ he)
    · intro v p hp
      obtain ⟨hpP, hrest'⟩ := hC.prev_edge v p hp
      exact ⟨List.mem_append_left _ hpP, hrest'⟩
    · intro i p hp
      rcases Nat.lt_or_ge i.1 proc.length with hi | hi
      · have hget : (proc ++ [u]).get i = proc.get ⟨i.1, hi⟩ :=
          List.get_append i.1 hi
        rw [hget] at hp
        obtain ⟨j, hj, hjp⟩ := hC.prev_order ⟨i.1, hi⟩ p hp
        refine ⟨⟨j.1, by simp; omega⟩, hj, ?_⟩
        rw [List.get_append j.1 j.2]
        exact hjp
      · have hi' : i.1 = proc.length := by
          have := i.2
          simp at this
          omega
        have hget : (proc ++ [u]).get i = u := by
          rw [List.get_eq_getElem, List.getElem_append_right hi]
          simp [hi']
        rw [hget] at hp
        obtain ⟨hpP, _⟩ := hC.prev_edge u p hp
        obtain ⟨j0, hj0⟩ := List.get_of_mem hpP
        refine ⟨⟨j0.1, by simp; omega⟩, ?_, ?_⟩
        · show (j0.1 : Nat) < i.1
          omega
        · show (proc ++ [u]).get ⟨j0.1, _⟩ = p
          rw [List.get_append j0.1 j0.2]
          exact hj0
  have hmidrel : ∀ x, x ≠ u → RelaxDisj g (⟨dist, prev, rest⟩ : DState) x := by
    intro x hx
    rcases hrel x with h | ⟨e, he, he2, he3⟩
    · exact Or.inl h
    · rcases List.mem_cons.mp he with rfl | he
      · exact absurd he2.symm hx
      · exact Or.inr ⟨e, he, he2, he3⟩
  obtain ⟨hC2, hrel2, hdu2, hlow2, hdone2, hlen2⟩ :=
    relax_fold wf (adjOf g u) ⟨dist, prev, rest⟩ hmidC hmidrel hlive.symm
      (List.mem_append_right _ (List.mem_singleton.mpr rfl)) (fun vw h => h)
  refine ⟨hC2, ?_, huproc, by simpa using hlen2⟩
  intro x
  by_cases hx : x = u
  · left
    intro vw hvw
    rw [hx] at hvw
    rw [hx, hdu2]
    calc distGet ((adjOf g u).foldl (relaxOne u d) ⟨dist, prev, rest⟩).dist vw.1
        ≤ ((d + vw.2 : ℚ) : WithTop ℚ) := hdone2 vw hvw
      _ = ((d : ℚ) : WithTop ℚ) + (vw.2 : WithTop ℚ) := by push_cast; rfl
  · exact hrel2 x hx

/-- A stale pop (`d ≠ dist u`): dropping the entry preserves the invariant. -/
theorem step_stale {dist : List (String × WithTop ℚ)}
    {prev : List (String × Option String)} {d : ℚ} {u : String}
    {rest : List (ℚ × String)} {proc : List String} {lp : ℚ}
    (hC : Core g source ⟨dist, prev, (d, u) :: rest⟩ proc lp)
    (hrel : ∀ x, RelaxDisj g ⟨dist, prev, (d, u) :: rest⟩ x)
    (hstale : ¬ ((d : ℚ) : WithTop ℚ) = distGet dist u) :
    Core g source ⟨dist, prev, rest⟩ proc d ∧
    (∀ x, RelaxDisj g (⟨dist, prev, rest⟩ : DState) x) := by
  have hhead : ((d, u) : ℚ × String) ∈ (d, u) :: rest := List.mem_cons_self _ _
  have hd_lp : lp ≤ d := hC.lp_le (d, u) hhead
  have hd0 : (0 : ℚ) ≤ d := le_trans hC.lp_nonneg hd_lp
  have hsorted := List.sorted_cons.mp hC.sorted
  constructor
  · refine ⟨hsorted.2, fun e he => pqle_fst_le (hsorted.1 e he), hd0, hC.dist_source,
      ?_, ?_, hC.reach, ?_, hC.proc_nodup, hC.proc_fin, ?_, ?_, hC.proc_names, ?_,
      hC.prev_source, hC.prev_set, hC.prev_edge, hC.prev_order,
      hC.prev_keys_nodup, hC.prev_keys_src⟩
    · exact fun e he => hC.entry_ge e (List.mem_cons_of_mem _ he)
    · intro v
      have h1 : (((d, u) :: rest).countP fun e =>
          decide (e.2 = v ∧ ((e.1 : ℚ) : WithTop ℚ) = distGet dist v)) ≤ 1 :=
        hC.live_count v
      rw [List.countP_cons] at h1
      show (rest.countP fun e =>
          decide (e.2 = v ∧ ((e.1 : ℚ) : WithTop ℚ) = distGet dist v)) ≤ 1
      omega
    · intro v hv
      rcases hC.live v hv with h | ⟨e, he, he2, he3⟩
      · exact Or.inl h
      · rcases List.mem_cons.mp he with rfl | he
        · exfalso
          apply hstale
          have he2' : u = v := he2
          have he3' : ((d : ℚ) : WithTop ℚ) = distGet dist v := he3
          rw [← he2'] at he3'
          exact he3'
        · exact Or.inr ⟨e, he, he2, he3⟩
    · exact fun x hx => le_trans (hC.proc_le x hx) (by exact_mod_cast hd_lp)
    · exact fun x hx e he he2 => hC.proc_nolive x hx e (List.mem_cons_of_mem _ he) he2
    · exact fun e he => hC.pq_names e (List.mem_cons_of_mem _ he)
  · intro x
    rcases hrel x with h | ⟨e, he, he2, he3⟩
    · exact Or.inl h
    · rcases List.mem_cons.mp he with rfl | he
      · exfalso
        apply hstale
        have he2' : u = x := he2
        have he3' : ((d : ℚ) : WithTop ℚ) = distGet dist x := he3
        rw [← he2'] at he3'
        exact he3'
      · exact Or.inr ⟨e, he, he2, he3⟩

end DijkstraFold

section DijkstraLoopProof

variable {g : Graph} {source : String}

theorem adjOf_eq_nil_of_not_mem {u : String} (h : u ∉ gkeys g) :
    adjOf g u = [] := by
  have h' : u ∉ g.map Prod.fst := h
  rw [adjOf, dget_eq_none h']
  rfl

/-- Removing one unsettled node from the filter accounts for exactly its
out-degree (keys being duplicate-free). -/
theorem sum_filter_drop (f : String → Nat) :
    ∀ (l : List String) (proc : List String) (u : String), l.Nodup → u ∉ proc →
    ((l.filter fun x => x ∉ proc).map f).sum
      = ((l.filter fun x => x ∉ proc ++ [u]).map f).sum
        + (if u ∈ l then f u else 0) := by
  intro l
  induction l with
  | nil => intro proc u _ _; simp
  | cons a t ih =>
      intro proc u hnd hu
      have hnd' := List.nodup_cons.mp hnd
      by_cases hau : a = u
      · subst hau
        rw [if_pos (List.mem_cons_self a t)]
        have hfilters : (t.filter fun x => decide (x ∉ proc ++ [a]))
            = t.filter fun x => decide (x ∉ proc) := by
          apply List.filter_congr
          intro x hx
          have hxa : x ≠ a := fun h => hnd'.1 (h ▸ hx)
          simp [List.mem_append, hxa]
        simp only [List.filter_cons]
        rw [if_pos (by simpa using hu),
          if_neg (by simp [List.mem_append] : ¬ (decide (a ∉ proc ++ [a]) = true)),
          hfilters]
        simp [Nat.add_comm]
      · have hif : (if u ∈ a :: t then f u else 0) = if u ∈ t then f u else 0 := by
          apply if_congr ?_ rfl rfl
          rw [List.mem_cons]
          exact or_iff_right (fun h : u = a => hau h.symm)
        rw [hif]
        have hacond : (a ∉ proc ++ [u]) ↔ (a ∉ proc) := by
          simp [List.mem_append, hau]
        by_cases hap : a ∈ proc
        · simp only [List.filter_cons]
          rw [if_neg (by simpa using hap),
            if_neg (by simp [List.mem_append, hap])]
          exact ih proc u hnd'.2 hu
        · simp only [List.filter_cons]
          rw [if_pos (by simpa using hap),
            if_pos (by simp [List.mem_append, hap, hau])]
          simp only [List.map_cons, List.sum_cons]
          rw [ih proc u hnd'.2 hu]
          omega

theorem phi_pop (g : Graph) (dist : List (String × WithTop ℚ))
    (prev : List (String × Option String)) (d : ℚ) (u : String)
    (rest : List (ℚ × String)) (proc : List String) :
    phi g ⟨dist, prev, rest⟩ proc < phi g ⟨dist, prev, (d, u) :: rest⟩ proc := by
  simp only [phi]
  simp

theorem phi_cons_eq (g : Graph) (dist : List (String × WithTop ℚ))
    (prev : List (String × Option String)) (d : ℚ) (u : String)
    (rest : List (ℚ × String)) (proc : List String) :
    phi g ⟨dist, prev, (d, u) :: rest⟩ proc
      = (rest.length + 1)
        + (((gkeys g).filter fun x => x ∉ proc).map fun x => (adjOf g x).length).sum := by
  simp [phi]

theorem phi_live_lt (wf : WellFormedGraph g) {u : String} {proc : List String}
    (fin : DState) (restLen : Nat) (hu : u ∉ proc)
    (hlen : fin.pq.length ≤ restLen + (adjOf g u).length) :
    phi g fin (proc ++ [u])
      < (restLen + 1)
        + (((gkeys g).filter fun x => x ∉ proc).map fun x => (adjOf g x).length).sum := by
  have hsum : (((gkeys g).filter fun x => x ∉ proc).map fun x => (adjOf g x).length).sum
      = (((gkeys g).filter fun x => x ∉ proc ++ [u]).map fun x => (adjOf g x).length).sum
        + (if u ∈ gkeys g then (adjOf g u).length else 0) :=
    sum_filter_drop (fun x => (adjOf g x).length) (gkeys g) proc u wf.1 hu
  by_cases hg : u ∈ gkeys g
  · rw [if_pos hg] at hsum
    simp only [phi]
    omega
  · rw [if_neg hg] at hsum
    have hz : (adjOf g u).length = 0 := by rw [adjOf_eq_nil_of_not_mem hg]; rfl
    simp only [phi]
    omega

/-- With fuel at least the potential, the loop drains the queue and the
invariant holds at the final state. -/
theorem loop_drains (wf : WellFormedGraph g) :
    ∀ (fuel : Nat) (st : DState) (proc : List String) (lp : ℚ),
      Core g source st proc lp →
      (∀ x, RelaxDisj g st x) →
      phi g st proc ≤ fuel →
      ∃ proc' lp',
        Core g source (dijkstraLoop g fuel st) proc' lp' ∧
        (∀ x, RelaxDisj g (dijkstraLoop g fuel st) x) ∧
        (dijkstraLoop g fuel st).pq = [] := by
  intro fuel
  induction fuel with
  | zero =>
      intro st proc lp hC hrel hphi
      have h1 : st.pq.length ≤ phi g st proc := Nat.le_add_right _ _
      have hpq : st.pq = [] := List.length_eq_zero.mp (by omega)
      have heq : dijkstraLoop g 0 st = st := rfl
      exact ⟨proc, lp, heq ▸ hC, heq ▸ hrel, heq ▸ hpq⟩
  | succ fuel ih =>
      intro st proc lp hC hrel hphi
      obtain ⟨dist, prev, pq⟩ := st
      cases pq with
      | nil =>
          have heq : dijkstraLoop g (fuel + 1) ⟨dist, prev, []⟩ = ⟨dist, prev, []⟩ := rfl
          exact ⟨proc, lp, heq ▸ hC, heq ▸ hrel, by rw [heq]⟩
      | cons e rest =>
          obtain ⟨d, u⟩ := e
          by_cases hl : ((d : ℚ) : WithTop ℚ) = distGet dist u
          · have heq : dijkstraLoop g (fuel + 1) ⟨dist, prev, (d, u) :: rest⟩
                = dijkstraLoop g fuel
                    ((adjOf g u).foldl (relaxOne u d) ⟨dist, prev, rest⟩) := by
              show (if ((d : ℚ) : WithTop ℚ) = distGet dist u then
                  dijkstraLoop g fuel ((adjOf g u).foldl (relaxOne u d) ⟨dist, prev, rest⟩)
                else dijkstraLoop g fuel ⟨dist, prev, rest⟩) = _
              rw [if_pos hl]
            rw [heq]
            obtain ⟨hC2, hrel2, hunp, hlen2⟩ := step_live wf hC hrel hl
            apply ih _ (proc ++ [u]) d hC2 hrel2
            have hlt := phi_live_lt wf _ rest.length hunp hlen2
            rw [phi_cons_eq] at hphi
            omega
          · have heq : dijkstraLoop g (fuel + 1) ⟨dist, prev, (d, u) :: rest⟩
                = dijkstraLoop g fuel ⟨dist, prev, rest⟩ := by
              show (if ((d : ℚ) : WithTop ℚ) = distGet dist u then
                  dijkstraLoop g fuel ((adjOf g u).foldl (relaxOne u d) ⟨dist, prev, rest⟩)
                else dijkstraLoop g fuel ⟨dist, prev, rest⟩) = _
              rw [if_neg hl]
            rw [heq]
            obtain ⟨hC2, hrel2⟩ := step_stale hC hrel hl
            apply ih _ proc d hC2 hrel2
            have hlt := phi_pop g dist prev d u rest proc
            omega

theorem sum_adjOf_keys : ∀ (g' : Graph), (g'.map Prod.fst).Nodup →
    ((gkeys g').map fun x => (adjOf g' x).length).sum = edgeCount g' := by
  intro g'
  induction g' with
  | nil => intro _; simp [gkeys, edgeCount]
  | cons p t ih =>
      intro hnd
      rw [List.map_cons] at hnd
      have hnd' := List.nodup_cons.mp hnd
      have hhead : adjOf (p :: t) p.1 = p.2 := by
        simp [adjOf, dget]
      have htail : (gkeys t).map (fun x => (adjOf (p :: t) x).length)
          = (gkeys t).map fun x => (adjOf t x).length := by
        apply List.map_congr_left
        intro x hx
        have hxp : ¬ (p.1 = x) := fun h => hnd'.1 (h ▸ hx)
        simp [adjOf, dget, hxp]
      simp only [gkeys, List.map_cons, List.sum_cons, edgeCount]
      rw [hhead]
      have := ih hnd'.2
      simp only [gkeys, edgeCount] at this htail
      rw [htail, this]

theorem phi_init (wf : WellFormedGraph g) (source : String) :
    phi g (initState g source) [] = 1 + edgeCount g := by
  have hfil : ((gkeys g).filter fun x => x ∉ ([] : List String)) = gkeys g := by
    apply List.filter_eq_self.mpr
    intro a _
    simp
  simp only [phi, initState]
  rw [hfil, sum_adjOf_keys g wf.1]
  simp

/-- Running the loop from the initial state with the declared fuel drains
the queue, and the invariant holds at the final state. -/
theorem run_spec (wf : WellFormedGraph g) (hs : source ∈ gkeys g) :
    ∃ proc lp,
      Core g source (dijkstraLoop g (dijkstraFuel g) (initState g source)) proc lp ∧
      (∀ x, RelaxDisj g (dijkstraLoop g (dijkstraFuel g) (initState g source)) x) ∧
      (dijkstraLoop g (dijkstraFuel g) (initState g source)).pq = [] := by
  obtain ⟨hC, hrel⟩ := init_core wf hs
  apply loop_drains wf _ _ [] 0 hC hrel
  rw [phi_init wf source]
  simp only [dijkstraFuel]
  omega

end DijkstraLoopProof

section DijkstraFinal

variable {g : Graph} {source : String}

/-- At loop exit no edge is relaxable, so `dist` is a lower bound certificate:
it is at most the cost of every path from the source. -/
theorem dist_le_path {st : DState} {proc : List String} {lp : ℚ}
    (hC : Core g source st proc lp) (hrel : ∀ x, RelaxDisj g st x)
    (hpq : st.pq = []) :
    ∀ {v : String} {c : ℚ}, IsPath g source v c →
      distGet st.dist v ≤ (c : WithTop ℚ) := by
  intro v c hp
  induction hp with
  | nil =>
      rw [hC.dist_source]
      simp
  | snoc hpath hedge ih =>
      rename_i v' t c' w
      rcases hrel v' with h | ⟨e', he', _⟩
      · calc distGet st.dist t
            ≤ distGet st.dist v' + ((w : ℚ) : WithTop ℚ) := h (t, w) hedge
          _ ≤ ((c' : ℚ) : WithTop ℚ) + ((w : ℚ) : WithTop ℚ) := by
              exact add_le_add_right ih _
          _ = ((c' + w : ℚ) : WithTop ℚ) := by push_cast; rfl
      · rw [hpq] at he'
        cases he'

theorem proc_subset_prev {st : DState} {proc : List String} {lp : ℚ}
    (hC : Core g source st proc lp) :
    ∀ x ∈ proc, x ∈ st.prev.map Prod.fst := by
  intro x hx
  by_cases hxs : x = source
  · rw [hxs]; exact hC.prev_keys_src
  · exact prevGet_isSome_mem_keys (hC.prev_set x (hC.proc_fin x hx) hxs)

theorem proc_length_le {st : DState} {proc : List String} {lp : ℚ}
    (hC : Core g source st proc lp) : proc.length ≤ st.prev.length := by
  have h1 := (hC.proc_nodup.subperm (proc_subset_prev hC)).length_le
  simpa using h1

/-- The backward walk from any settled non-source node reaches, within the
settlement depth, a node whose predecessor is the source; the walked suffix is
a real path and its cost is the distance difference. -/
theorem walk_reaches {st : DState} {proc : List String} {lp : ℚ}
    (hC : Core g source st proc lp) :
    ∀ n (i : Nat) (hi : i < proc.length), i < n →
      proc.get ⟨i, hi⟩ ≠ source →
      distGet st.dist (proc.get ⟨i, hi⟩) ≠ ⊤ →
      ∀ fuel, n ≤ fuel →
      ∃ nh, walkHop st.prev source fuel (proc.get ⟨i, hi⟩) = nh ∧
        prevGet st.prev nh = some source ∧
        ∃ c₂ : ℚ, IsPath g nh (proc.get ⟨i, hi⟩) c₂ ∧
          distGet st.dist (proc.get ⟨i, hi⟩)
            = distGet st.dist nh + ((c₂ : ℚ) : WithTop ℚ) := by
  intro n
  induction n with
  | zero => intro i hi hin; omega
  | succ n ihn =>
      intro i hi hin hns hfin fuel hfuel
      have hsome := hC.prev_set _ hfin hns
      obtain ⟨p, hp⟩ := Option.isSome_iff_exists.mp hsome
      obtain ⟨hpP, w, hw, hdist⟩ := hC.prev_edge _ p hp
      have hpne : p ≠ "" := hC.proc_names p hpP
      obtain ⟨f', rfl⟩ : ∃ f', fuel = f' + 1 := ⟨fuel - 1, by omega⟩
      by_cases hps : p = source
      · have hwalk : walkHop st.prev source (f' + 1) (proc.get ⟨i, hi⟩)
            = proc.get ⟨i, hi⟩ := by
          simp only [walkHop, hp]
          rw [if_neg (by simp [hps])]
        refine ⟨proc.get ⟨i, hi⟩, hwalk, by rw [hp, hps], 0, IsPath.nil, by simp⟩
      · obtain ⟨j, hj, hjp⟩ := hC.prev_order ⟨i, hi⟩ p hp
        have hjp' : proc.get ⟨j.1, j.2⟩ = p := hjp
        have hwalk : walkHop st.prev source (f' + 1) (proc.get ⟨i, hi⟩)
            = walkHop st.prev source f' p := by
          simp only [walkHop, hp]
          rw [if_pos ⟨hpne, hps⟩]
        have hj' : j.1 < i := hj
        have hrec := ihn j.1 j.2 (by omega) (by rw [hjp']; exact hps)
          (by rw [hjp']; exact hC.proc_fin p hpP) f' (by omega)
        rw [hjp'] at hrec
        obtain ⟨nh, hwk, hnhsrc, c₂, hpath, hsum⟩ := hrec
        refine ⟨nh, by rw [hwalk, hwk], hnhsrc, c₂ + w, IsPath.snoc hpath hw, ?_⟩
        calc distGet st.dist (proc.get ⟨i, hi⟩)
            = distGet st.dist p + ((w : ℚ) : WithTop ℚ) := hdist
          _ = (distGet st.dist nh + ((c₂ : ℚ) : WithTop ℚ))
                + ((w : ℚ) : WithTop ℚ) := by rw [hsum]
          _ = distGet st.dist nh + ((c₂ + w : ℚ) : WithTop ℚ) := by
              rw [add_assoc]
              push_cast
              rfl

/-- Membership in the computed routing table, by construction. -/
theorem mem_routing_table (g : Graph) (source : String) (e : RTEntry) :
    e ∈ routing_table_for g source ↔
      e.destino ∈ gkeys g ∧ e.destino ≠ source ∧
      distGet (dijkstraLoop g (dijkstraFuel g) (initState g source)).dist e.destino ≠ ⊤ ∧
      e.next_hop
        = walkHop (dijkstraLoop g (dijkstraFuel g) (initState g source)).prev source
            ((dijkstraLoop g (dijkstraFuel g) (initState g source)).prev.length + 1)
            e.destino ∧
      e.costo
        = (distGet (dijkstraLoop g (dijkstraFuel g) (initState g source)).dist
            e.destino).untop' 0 := by
  simp only [routing_table_for, List.mem_filterMap]
  constructor
  · rintro ⟨dest, hdest, hf⟩
    by_cases h1 : dest = source
    · rw [if_pos h1] at hf
      cases hf
    · rw [if_neg h1] at hf
      by_cases h2 : distGet (dijkstraLoop g (dijkstraFuel g)
          (initState g source)).dist dest = ⊤
      · rw [if_pos h2] at hf
        cases hf
      · rw [if_neg h2] at hf
        cases hf
        exact ⟨hdest, h1, h2, rfl, rfl⟩
  · rintro ⟨hmem, h1, h2, h3, h4⟩
    refine ⟨e.destino, hmem, ?_⟩
    rw [if_neg h1, if_neg h2]
    obtain ⟨d1, d2, d3⟩ := e
    simp only at h3 h4
    rw [h3, h4]

end DijkstraFinal

/-- **C1 (counterexample)** — the claim fails as stated on a graph whose
middle node is named by the empty string (a falsy value in the Python
backward walk `while prev.get(hop) and prev[hop] != source`): on the graph
`s → "" → d` with unit costs the row for `d` has `next_hop = d`, which is not
a neighbour of `s` (its cost 2 is still correct).  All edge costs are
non-negative, keys are duplicate-free, and `s` is a key, so the input is
within the claim's scope. -/
theorem C1_counterexample :
    (∀ p ∈ ([("s", [("", (1 : ℚ))]), ("", [("d", 1)]), ("d", [])] : Graph),
        ∀ vw ∈ p.2, 0 ≤ vw.2) ∧
    (gkeys [("s", [("", (1 : ℚ))]), ("", [("d", 1)]), ("d", [])]).Nodup ∧
    "s" ∈ gkeys [("s", [("", (1 : ℚ))]), ("", [("d", 1)]), ("d", [])] ∧
    (∃ e ∈ routing_table_for [("s", [("", (1 : ℚ))]), ("", [("d", 1)]), ("d", [])] "s",
      e.destino = "d" ∧ e.next_hop = "d" ∧ e.costo = 2) ∧
    (∀ vw ∈ adjOf [("s", [("", (1 : ℚ))]), ("", [("d", 1)]), ("d", [])] "s",
      vw.1 ≠ "d") := by
  decide

/-- **C1 (amended)** — restricted to graphs whose node identifiers are
non-empty strings (`WellFormedGraph` also packages the modelling facts that
a Python dict has no duplicate keys, plus the claim's own non-negative-cost
hypothesis): for every source key, (1) every row of
`routing_table_for g source` is keyed by a non-source graph key, its cost is
a realised path cost that lower-bounds the cost of every path from the source
to that destination (i.e. it is the exact shortest-path distance), and its
next hop is a neighbour of the source that starts a path to the destination
whose total cost equals the row's cost; (2) unreachable destinations have no
row; (3) every reachable non-source key has a row. -/
theorem C1_routing_table_correct (g : Graph) (source : String)
    (wf : WellFormedGraph g) (hs : source ∈ gkeys g) :
    (∀ e ∈ routing_table_for g source,
      e.destino ∈ gkeys g ∧ e.destino ≠ source ∧
      IsPath g source e.destino e.costo ∧
      (∀ c, IsPath g source e.destino c → e.costo ≤ c) ∧
      ∃ w c₂, HasEdge g source e.next_hop w ∧ IsPath g e.next_hop e.destino c₂ ∧
        w + c₂ = e.costo) ∧
    (∀ dest, (∀ c, ¬ IsPath g source dest c) →
      ¬ ∃ e ∈ routing_table_for g source, e.destino = dest) ∧
    (∀ dest ∈ gkeys g, dest ≠ source → (∃ c, IsPath g source dest c) →
      ∃ e ∈ routing_table_for g source, e.destino = dest) := by
  obtain ⟨proc, lp, hC, hrel, hpq⟩ := run_spec wf hs
  have hmain : ∀ e ∈ routing_table_for g source,
      e.destino ∈ gkeys g ∧ e.destino ≠ source ∧
      IsPath g source e.destino e.costo ∧
      (∀ c, IsPath g source e.destino c → e.costo ≤ c) ∧
      ∃ w c₂, HasEdge g source e.next_hop w ∧ IsPath g e.next_hop e.destino c₂ ∧
        w + c₂ = e.costo := by
    intro e he
    rw [mem_routing_table] at he
    obtain ⟨hkey, hnsrc, hfin, hnh, hcost⟩ := he
    obtain ⟨q, hq⟩ := WithTop.ne_top_iff_exists.mp hfin
    have hcostq : e.costo = q := by
      rw [hcost, ← hq]
      rfl
    have hpathq : IsPath g source e.destino q := hC.reach _ q hq.symm
    have hproc : e.destino ∈ proc := by
      rcases hC.live e.destino hfin with h | ⟨e', he', _⟩
      · exact h
      · rw [hpq] at he'
        cases he'
    obtain ⟨idx, hidx⟩ := List.get_of_mem hproc
    have hidx' : proc.get ⟨idx.1, idx.2⟩ = e.destino := hidx
    have hwk := walk_reaches hC proc.length idx.1 idx.2 idx.2
      (by rw [hidx']; exact hnsrc) (by rw [hidx']; exact hfin)
      ((dijkstraLoop g (dijkstraFuel g) (initState g source)).prev.length + 1)
      (by have := proc_length_le hC; omega)
    rw [hidx'] at hwk
    obtain ⟨nh, hwkeq, hnhsrc, c₂, hpath2, hsum2⟩ := hwk
    obtain ⟨hsrcproc, w, hwedge, hwd⟩ := hC.prev_edge nh source hnhsrc
    rw [hC.dist_source, zero_add] at hwd
    have hq2 : ((q : ℚ) : WithTop ℚ) = ((w + c₂ : ℚ) : WithTop ℚ) := by
      calc ((q : ℚ) : WithTop ℚ)
          = distGet (dijkstraLoop g (dijkstraFuel g) (initState g source)).dist
              e.destino := hq
        _ = distGet (dijkstraLoop g (dijkstraFuel g) (initState g source)).dist nh
              + ((c₂ : ℚ) : WithTop ℚ) := hsum2
        _ = ((w : ℚ) : WithTop ℚ) + ((c₂ : ℚ) : WithTop ℚ) := by rw [hwd]
        _ = ((w + c₂ : ℚ) : WithTop ℚ) := by push_cast; rfl
    have hq3 : q = w + c₂ := by exact_mod_cast hq2
    refine ⟨hkey, hnsrc, by rw [hcostq]; exact hpathq, ?_, ?_⟩
    · intro c hc
      have hle := dist_le_path hC hrel hpq hc
      rw [← hq] at hle
      rw [hcostq]
      exact_mod_cast hle
    · have hnh2 : e.next_hop = nh := by rw [hnh, hwkeq]
      refine ⟨w, c₂, ?_, ?_, ?_⟩
      · rw [hnh2]
        exact hwedge
      · rw [hnh2]
        exact hpath2
      · rw [hcostq, hq3]
  refine ⟨hmain, ?_, ?_⟩
  · intro dest hunreach
    rintro ⟨e, he, hde⟩
    obtain ⟨_, _, hpath, _, _⟩ := hmain e he
    rw [hde] at hpath
    exact hunreach e.costo hpath
  · intro dest hdest hns hreach
    obtain ⟨c, hc⟩ := hreach
    have hle := dist_le_path hC hrel hpq hc
    have hfin : distGet (dijkstraLoop g (dijkstraFuel g)
        (initState g source)).dist dest ≠ ⊤ :=
      ne_top_of_le_ne_top (WithTop.coe_ne_top) hle
    refine ⟨⟨dest,
      walkHop (dijkstraLoop g (dijkstraFuel g) (initState g source)).prev source
        ((dijkstraLoop g (dijkstraFuel g) (initState g source)).prev.length + 1) dest,
      (distGet (dijkstraLoop g (dijkstraFuel g) (initState g source)).dist
        dest).untop' 0⟩, ?_, rfl⟩
    rw [mem_routing_table]
    exact ⟨hdest, hns, hfin, rfl, rfl⟩

/-- Witness for C1 on the linear topology `A — B — C` with unit costs:
the table from `A` has the row for `C` with next hop `B` and cost 2
(the spec's Scenario 1). -/
theorem C1_witness :
    WellFormedGraph [("A", [("B", (1 : ℚ))]), ("B", [("A", 1), ("C", 1)]),
      ("C", [("B", 1)])] ∧
    (∃ e ∈ routing_table_for [("A", [("B", (1 : ℚ))]), ("B", [("A", 1), ("C", 1)]),
        ("C", [("B", 1)])] "A", e.destino = "C") ∧
    routing_table_for [("A", [("B", (1 : ℚ))]), ("B", [("A", 1), ("C", 1)]),
        ("C", [("B", 1)])] "A" = [⟨"B", "B", 1⟩, ⟨"C", "B", 2⟩] := by
  refine ⟨by decide, ?_, by decide⟩
  refine (C1_routing_table_correct _ "A" (by decide) (by decide)).2.2 "C"
    (by decide) (by decide) ⟨2, ?_⟩
  have e1 : HasEdge [("A", [("B", (1 : ℚ))]), ("B", [("A", 1), ("C", 1)]),
      ("C", [("B", 1)])] "A" "B" 1 := by unfold HasEdge; decide
  have e2 : HasEdge [("A", [("B", (1 : ℚ))]), ("B", [("A", 1), ("C", 1)]),
      ("C", [("B", 1)])] "B" "C" 1 := by unfold HasEdge; decide
  have h2 : ((0 : ℚ) + 1) + 1 = 2 := by decide
  rw [← h2]
  exact IsPath.snoc (IsPath.snoc IsPath.nil e1) e2

end RedesPruebas
